import Mathlib

/-!
Verification of the CS3245-HW4 patent search engine (index.py, search.py,
information_need.py, patent.py) against its natural-language specification.

The embedding models the two phases of the program:
  * index construction (`index.py`): building per-field postings maps,
    grouping consecutive duplicate document IDs into weighted postings,
    computing per-document vector norms and writing the postings file
    together with its directory;
  * query scoring (`search.py`): reading postings back from the file,
    accumulating per-field relevance scores, dividing by vector norms,
    combining fields with fixed 0.05/0.95 weights, ranking, and the
    classification-code based result expansion.

Modelling conventions:
  * Python dictionaries are modelled as association lists
    (`List (String × _)`); `d[k]`-style reads that can raise `KeyError`
    are modelled with `Option`/defaults as noted at each definition.
  * Python floats are modelled as rationals (`ℚ`).  The two transcendental
    library routines the program calls, `math.log10` and `math.sqrt`, are
    external collaborators and are passed in as explicit function
    parameters (`log10 sqrt : ℚ → ℚ`); theorems that need facts about them
    state those facts as hypotheses.
  * The postings file is modelled as a `List Char`; one char = one byte
    (all written characters are ASCII).
-/

namespace HW4

/-- The two index fields, `"Title"` and `"Abstract"` in the Python sources. -/
inductive Field
  | Title
  | Abstract
deriving DecidableEq

/-- One entry of the term directory: `dictionary[field][term]` is the triple
`(pointer, length_of_postings_in_bytes, idf)` (see the docstring at the top of
index.py). -/
structure DictEntry where
  pointer : Nat
  byteLen : Nat
  idf : ℚ
deriving DecidableEq

/-- Per-document metadata: `docs_metadata[docID]` is the triple
`(title_length, abstract_length, IPC)` (see `calculate_metadata` in index.py
and the comments in `process_queries` in search.py). -/
structure DocMeta where
  titleNorm : ℚ
  abstractNorm : ℚ
  ipc : String
deriving DecidableEq

/-- Python `m.get(k, 0)` on a score dictionary. -/
def getD (m : List (String × ℚ)) (k : String) : ℚ :=
  ((m.lookup k).getD 0)

/-! ## information_need.py -/

/-- The body of `InformationNeed.__init__` after `xmltodict.parse`: every
key/value pair of the parsed query is kept, except that the value under the
`description` key has its first 33 characters removed unconditionally
(`temp_dict[key][33:]`, information_need.py lines 43-49). -/
def information_need_dict (temp : List (String × String)) : List (String × String) :=
  temp.map (fun kv => if kv.1 = "description" then (kv.1, String.mk (kv.2.data.drop 33)) else kv)

/-- The token list that `process_queries` scores against the Abstract field:
`normalize(q["description"])` (search.py lines 143-148).  The linguistic
normalizer (nltk tokenize/stopword/stem) is an external collaborator passed as
a function.  A missing `description` key would raise `KeyError` in Python; it
is modelled by the empty-string default and excluded by hypothesis in the
theorems. -/
def query_description_terms (normalize : String → List String)
    (queryData : List (String × String)) : List String :=
  normalize (((queryData.lookup "description").getD ""))

/-! ## Ranking and result expansion (search.py) -/

/-- The stable descending-by-score sort performed by
`sorted(doc_scores.iteritems(), key=lambda e: e[1], reverse=True)`
(search.py lines 80-82).  Python's sort is stable and `reverse=True`
preserves the relative order of equal-score entries, which `mergeSort` with a
non-strict comparison also does.  The input list order models the (arbitrary)
iteration order of the Python dictionary. -/
def ranked_pairs (doc_scores : List (String × ℚ)) : List (String × ℚ) :=
  doc_scores.mergeSort (fun a b => decide (b.2 ≤ a.2))

/-- `docIDs_decreasing_score` (search.py lines 73-83): sort the score map's
entries by descending score and return the document IDs. -/
def docIDs_decreasing_score (doc_scores : List (String × ℚ)) : List String :=
  (ranked_pairs doc_scores).map Prod.fst

/-- Metadata lookup `docs_metadata[docID][2]` used by `expand_query`; a
missing key would raise `KeyError` in Python, modelled by a default and
excluded by hypothesis where it matters. -/
def metaIpc (docs_metadata : List (String × DocMeta)) (d : String) : String :=
  (((docs_metadata.lookup d).getD ⟨0, 0, ""⟩).ipc)

/-- `expand_query` (search.py lines 85-92): take the top 20 ranked document
IDs, collect their IPC classification codes, rebuild the candidate list as
every document whose code is in that set, attach each document's
already-computed score (0 if absent), and re-sort by descending score. -/
def expand_query (sorted_docIDs : List String) (doc_scores : List (String × ℚ))
    (docs_metadata : List (String × DocMeta)) : List String :=
  let top_20_docIDs := sorted_docIDs.take 20
  let top_20_IPCs := top_20_docIDs.map (fun d => metaIpc docs_metadata d)
  let docs_in_IPCs := (docs_metadata.filter (fun e => top_20_IPCs.contains e.2.ipc)).map Prod.fst
  let docs_IPCs_scores := docs_in_IPCs.map (fun d => (d, getD doc_scores d))
  (docs_IPCs_scores.mergeSort (fun a b => decide (b.2 ≤ a.2))).map Prod.fst

/-- The field-combination loop of `process_queries` (search.py lines 168-170):
for every docID in the metadata,
`doc_scores[docID] = title.get(docID, 0) * 0.05 + description.get(docID, 0) * 0.95`. -/
def combined_scores (docs_metadata : List (String × DocMeta))
    (title_scores description_scores : List (String × ℚ)) : List (String × ℚ) :=
  docs_metadata.map
    (fun e => (e.1, getD title_scores e.1 * (5 / 100) + getD description_scores e.1 * (95 / 100)))

/-! ## Decimal formatting and parsing (postings file encoding)

index.py writes each weight with the format string `"%.9f"` (nine fractional
digits, index.py lines 226 and 235); search.py parses it back with Python's
`float` (search.py line 264).  Weights written by the program are the lnc
weights `1 + log10(tf) >= 1`, so only the non-negative case is modelled. -/

/-- One decimal digit character. -/
def digitCh (n : Nat) : Char :=
  match n with
  | 0 => '0'
  | 1 => '1'
  | 2 => '2'
  | 3 => '3'
  | 4 => '4'
  | 5 => '5'
  | 6 => '6'
  | 7 => '7'
  | 8 => '8'
  | _ => '9'

/-- Numeric value of a decimal digit character. -/
def chVal (c : Char) : Nat :=
  match c with
  | '0' => 0
  | '1' => 1
  | '2' => 2
  | '3' => 3
  | '4' => 4
  | '5' => 5
  | '6' => 6
  | '7' => 7
  | '8' => 8
  | '9' => 9
  | _ => 0

/-- Decimal digit string of a natural number, most significant digit first. -/
def natToDigits (n : Nat) : List Char :=
  if n < 10 then [digitCh n]
  else natToDigits (n / 10) ++ [digitCh (n % 10)]
  termination_by n
  decreasing_by exact Nat.div_lt_self (by omega) (by omega)

/-- Parse a decimal digit string back to a natural number. -/
def parseNatChars (s : List Char) : Nat :=
  s.foldl (fun a c => 10 * a + chVal c) 0

/-- Render a non-negative rational with exactly nine digits after the decimal
point, rounding to the nearest multiple of 10⁻⁹; this is the effect of
Python's `"%.9f" % weight` for the non-negative weights the program stores. -/
def fmt9 (q : ℚ) : List Char :=
  let n : Nat := (round (q * 1000000000)).toNat
  natToDigits (n / 1000000000) ++ '.' ::
    (List.replicate (9 - (natToDigits (n % 1000000000)).length) '0' ++
      natToDigits (n % 1000000000))

/-- A non-negative rational rounded to nine fractional decimal digits: the
value actually stored in the postings file for a weight. -/
def round9 (q : ℚ) : ℚ :=
  (((round (q * 1000000000)).toNat : ℚ) / 1000000000)

/-- Parse a decimal literal of the shape `digits.digits` (or bare digits), as
Python's `float` does on the strings this program writes. -/
def parseFloat (s : List Char) : ℚ :=
  let ip := s.takeWhile (fun c => c ≠ '.')
  match s.dropWhile (fun c => c ≠ '.') with
  | [] => (parseNatChars ip : ℚ)
  | _ :: fp => (parseNatChars ip : ℚ) + (parseNatChars fp : ℚ) / 10 ^ fp.length

/-! ## Postings store (write_postings in index.py, read_postings in search.py) -/

/-- Whitespace in the sense of Python's argument-less `str.split`. -/
def isSpaceCh (c : Char) : Bool :=
  c = ' ' || c = '\n' || c = '\t' || c = '\r'

/-- Python's `s.split()`: break on maximal runs of whitespace, dropping empty
pieces.  Defined by structural recursion: a non-space character either starts
a new token (when followed by whitespace or the end) or is prepended to the
token the rest of the input starts with. -/
def splitWS : List Char → List (List Char)
  | [] => []
  | c :: rest =>
    if isSpaceCh c then splitWS rest
    else
      match rest, splitWS rest with
      | [], _ => [[c]]
      | d :: _, ts =>
        if isSpaceCh d then [c] :: ts
        else
          match ts with
          | [] => [[c]]
          | t :: ts2 => (c :: t) :: ts2

/-- Render one posting as `docID,weight` (index.py lines 226 and 235). -/
def postingChars (p : String × ℚ) : List Char :=
  p.1.data ++ ',' :: fmt9 p.2

/-- Python's `" ".join`, on character lists. -/
def joinSpace (toks : List (List Char)) : List Char :=
  match toks with
  | [] => []
  | [t] => t
  | t :: rest => t ++ ' ' :: joinSpace rest

/-- One term's record in the postings file: its postings space-delimited
(index.py lines 226-227). -/
def recordChars (ps : List (String × ℚ)) : List Char :=
  joinSpace (ps.map postingChars)

/-- `idf_docs` (index.py lines 199-206): `log10(float(big_N) / df)`. -/
def idf_docs (log10 : ℚ → ℚ) (df : Nat) (big_N : Nat) : ℚ :=
  log10 ((big_N : ℚ) / (df : ℚ))

/-- The state threaded through `write_postings`: the file contents so far and
the directory entries recorded so far for the current field. -/
structure WriteState where
  file : List Char
  dir : List (String × DictEntry)

/-- The per-field loop of `write_postings` (index.py lines 224-241): for each
term, remember the current file position, append the term's record and a
newline, and record `(pointer, record_length, idf)` in the field directory.
The record length is `tell()` after the record minus the pointer, i.e. it
excludes the trailing newline. -/
def writeField (log10 : ℚ → ℚ) (big_N : Nat) (st : WriteState) :
    List (String × List (String × ℚ)) → WriteState
  | [] => st
  | tp :: rest =>
    writeField log10 big_N
      { file := st.file ++ recordChars tp.2 ++ ['\n']
        dir := st.dir ++
          [(tp.1, ⟨st.file.length, (recordChars tp.2).length,
            idf_docs log10 tp.2.length big_N⟩)] }
      rest

/-- `write_postings` (index.py lines 209-242): write all Title records, then
all Abstract records, into one file, producing the two per-field directories. -/
def write_postings (log10 : ℚ → ℚ)
    (title_postings_list abstract_postings_list : List (String × List (String × ℚ)))
    (big_N : Nat) : List Char × (Field → List (String × DictEntry)) :=
  let st1 := writeField log10 big_N ⟨[], []⟩ title_postings_list
  let st2 := writeField log10 big_N ⟨st1.file, []⟩ abstract_postings_list
  (st2.file, fun f => match f with
    | Field.Title => st1.dir
    | Field.Abstract => st2.dir)

/-- Parse one `docID,weight` token (search.py lines 261-264): split on `","`,
take element 0 as the document ID and `float` of element 1 as the weight.  A
token without a comma would raise `IndexError` in Python; it is modelled by
weight 0 and never arises for files this program writes. -/
def parsePosting (tok : List Char) : String × ℚ :=
  let a := tok.takeWhile (fun c => c ≠ ',')
  match tok.dropWhile (fun c => c ≠ ',') with
  | [] => (String.mk a, 0)
  | _ :: b => (String.mk a, parseFloat (b.takeWhile (fun c => c ≠ ',')))

/-- `read_postings` (search.py lines 242-267): look the term up in the field
directory; if absent return `[]`, otherwise seek to its pointer, read exactly
its recorded length, split on whitespace and parse each `docID,weight` token. -/
def read_postings (term : String) (dictionary : Field → List (String × DictEntry))
    (postings_file : List Char) (field : Field) : List (String × ℚ) :=
  match (dictionary field).lookup term with
  | none => []
  | some e => (splitWS ((postings_file.drop e.pointer).take e.byteLen)).map parsePosting

/-! ## Query scoring (update_relevance and process_queries in search.py) -/

/-- The `if docID not in doc_scores: doc_scores[docID] = 0` step of
`update_relevance` (search.py lines 228-229).  A fresh key is appended at the
end of the association list. -/
def ensureKey (m : List (String × ℚ)) (d : String) : List (String × ℚ) :=
  if (m.lookup d).isSome then m else m ++ [(d, 0)]

/-- The `doc_scores[docID] += x` step of `update_relevance`
(search.py lines 231-233). -/
def addTo (m : List (String × ℚ)) (d : String) (x : ℚ) : List (String × ℚ) :=
  m.map (fun e => if e.1 = d then (e.1, e.2 + x) else e)

/-- The query-side weight computed inside `update_relevance`
(search.py lines 220-226): `1` for a single-term query, else
`(1 + log10(tf_in_query)) * idf` with `tf_in_query = query_terms.count(term)`
and `idf = dictionary[field][term][2]`. -/
def query_term_weight (log10 : ℚ → ℚ) (dictionary : Field → List (String × DictEntry))
    (query_terms : List String) (term : String) (single_term_query : Bool)
    (field : Field) : ℚ :=
  if single_term_query then 1
  else (1 + log10 ((query_terms.count term : Nat) : ℚ)) *
    (((dictionary field).lookup term).getD ⟨0, 0, 0⟩).idf

/-- `update_relevance` (search.py lines 214-239): fetch the term's postings
and, for each `(docID, tf_in_doc)` posting, add
`tf_in_doc` (single-term query) or `tf_in_doc * queryTermWeight` to that
document's running score, creating the entry at 0 first if missing.  The
`dictionary[field][term][2]` idf access only runs when the postings list is
non-empty, in which case the term is present in the directory; the `getD`
default is never exercised then.  The debug `print` for one hard-coded docID
is a side effect with no influence on the returned scores and is omitted. -/
def update_relevance (log10 : ℚ → ℚ) (doc_scores : List (String × ℚ))
    (dictionary : Field → List (String × DictEntry)) (postings_file : List Char)
    (query_terms : List String) (term : String) (single_term_query : Bool)
    (field : Field) : List (String × ℚ) :=
  let postings := read_postings term dictionary postings_file field
  postings.foldl
    (fun sc p =>
      let weight_of_term_in_doc := p.2
      let w := query_term_weight log10 dictionary query_terms term single_term_query field
      let sc2 := ensureKey sc p.1
      addTo sc2 p.1
        (if single_term_query then weight_of_term_in_doc else weight_of_term_in_doc * w))
    doc_scores

/-- The per-field accumulation loop of `process_queries`
(search.py lines 150-156 and 161-164): `single_term` is whether the field's
token list has length exactly 1, and `update_relevance` is called once per
token occurrence (the loop iterates over the token list, duplicates
included), starting from the empty score map. -/
def field_scores_prediv (log10 : ℚ → ℚ) (dictionary : Field → List (String × DictEntry))
    (postings_file : List Char) (terms : List String) (field : Field) : List (String × ℚ) :=
  let single := terms.length == 1
  terms.foldl
    (fun sc t => update_relevance log10 sc dictionary postings_file terms t single field) []

/-- The stored vector norm consulted by the division loops of
`process_queries` (`docs_metadata[str(docID)][0]` or `[1]`,
search.py lines 157-167).  A docID missing from the metadata would raise
`KeyError` in Python (a fatal index inconsistency per the spec); it is
modelled by the 0 default. -/
def metaNorm (docs_metadata : List (String × DocMeta)) (field : Field) (d : String) : ℚ :=
  match field with
  | Field.Title => ((docs_metadata.lookup d).getD ⟨0, 0, ""⟩).titleNorm
  | Field.Abstract => ((docs_metadata.lookup d).getD ⟨0, 0, ""⟩).abstractNorm

/-- The norm-division loop of `process_queries` (search.py lines 157-159 and
165-167): every accumulated entry is divided by that document's stored vector
norm for the field.  Only documents present in the score map are touched. -/
def divide_by_norm (scores : List (String × ℚ)) (docs_metadata : List (String × DocMeta))
    (field : Field) : List (String × ℚ) :=
  scores.map (fun e => (e.1, e.2 / metaNorm docs_metadata field e.1))

/-- Modelled from the spec, for comparison with `field_scores_prediv`: the
field score as the specification describes it, a sum over the distinct query
terms of the field of (stored document weight for the term) × (query term
weight).  This is the claim-side definition; the code-side definition is
`field_scores_prediv`. -/
def spec_field_score (log10 : ℚ → ℚ) (dictionary : Field → List (String × DictEntry))
    (postings_file : List Char) (terms : List String) (field : Field) (d : String) : ℚ :=
  (terms.dedup.map
    (fun t =>
      getD (read_postings t dictionary postings_file field) d *
        query_term_weight log10 dictionary terms t (terms.length == 1) field)).sum

/-! ## Index construction (index.py) -/

/-- The posting-append step of `index_doc` (index.py lines 106-115): append
this document's ID to the term's preliminary postings, creating the entry if
the term is new.  Appending happens once per token occurrence, so raw term
frequency is encoded as run length. -/
def addPosting (m : List (String × List String)) (w : String) (d : String) :
    List (String × List String) :=
  if (m.lookup w).isSome then m.map (fun e => if e.1 = w then (e.1, e.2 ++ [d]) else e)
  else m ++ [(w, [d])]

/-- One field's loop of `index_doc`: `for word in words: append docID`. -/
def indexWords (m : List (String × List String)) (ws : List String) (d : String) :
    List (String × List String) :=
  ws.foldl (fun m w => addPosting m w d) m

/-- One document of the build input, as produced by the external document
parser and normalizer (`get_doc_content` in index.py): the document ID, the
normalized title and abstract token lists, and the IPC classification code. -/
structure BuildDoc where
  docID : String
  titleWords : List String
  abstractWords : List String
  ipc : String

/-- `index_all_docs` (index.py lines 119-137): fold `index_doc` over the
documents in their given order, collecting both fields' preliminary postings
and the IPC dictionary. -/
def index_all_docs (docs : List BuildDoc) :
    List (String × List String) × List (String × List String) × List (String × String) :=
  docs.foldl
    (fun acc doc =>
      (indexWords acc.1 doc.titleWords doc.docID,
       indexWords acc.2.1 doc.abstractWords doc.docID,
       acc.2.2 ++ [(doc.docID, doc.ipc)]))
    ([], [], [])

/-- `lnc_from_tf` (index.py lines 140-146): `1 + log10(tf)`. -/
def lnc_from_tf (log10 : ℚ → ℚ) (tf : Nat) : ℚ :=
  1 + log10 ((tf : Nat) : ℚ)

/-- `itertools.groupby` over a flat ID list, keeping each run's key and
length: `[(docID, len(list(group))) for docID, group in groupby(docIDs)]`. -/
def groupRuns : List String → List (String × Nat)
  | [] => []
  | a :: rest =>
    (a, 1 + (rest.takeWhile (fun b => b = a)).length) ::
      groupRuns (rest.dropWhile (fun b => b = a))
  termination_by l => l.length
  decreasing_by
    all_goals simp only [List.length_cons]
    exact Nat.lt_succ_of_le ((List.dropWhile_sublist _).length_le)

/-- `convert_preliminary_postings` (index.py lines 149-163): group each
term's flat ID list into runs and weight each run with `lnc_from_tf` of its
length. -/
def convert_preliminary_postings (log10 : ℚ → ℚ)
    (preliminary_postings : List (String × List String)) :
    List (String × List (String × ℚ)) :=
  preliminary_postings.map
    (fun e => (e.1, (groupRuns e.2).map (fun g => (g.1, lnc_from_tf log10 g.2))))

/-! ## Document metadata (calculate_metadata in index.py) -/

/-- One `defaultdict(float)` update `m[d] += x` (index.py lines 178 and 181):
a missing key starts from 0. -/
def bumpSq (m : List (String × ℚ)) (d : String) (x : ℚ) : List (String × ℚ) :=
  if (m.lookup d).isSome then m.map (fun e => if e.1 = d then (e.1, e.2 + x) else e)
  else m ++ [(d, x)]

/-- The sum-of-squares accumulation of `calculate_metadata`
(index.py lines 174-181): for every term and every posting,
`sum_squares[docID] += weight ** 2`. -/
def sum_squares (postings_list : List (String × List (String × ℚ))) : List (String × ℚ) :=
  postings_list.foldl
    (fun acc e => e.2.foldl (fun acc dw => bumpSq acc dw.1 (dw.2 ^ 2)) acc) []

/-- `calculate_metadata` (index.py lines 166-196): take square roots of the
per-document sums of squares, then, for every document in the IPC dictionary,
record `(title_lengths[docID], abstract_lengths.get(docID, 0), IPC)`.  The
title lookup is a plain Python subscript: a document with no title terms
raises `KeyError` and aborts the build, which the `Option` return models as
`none`.  The abstract lookup uses `.get(docID, 0)` and defaults to 0. -/
def calculate_metadata (sqrt : ℚ → ℚ)
    (title_postings_list abstract_postings_list : List (String × List (String × ℚ)))
    (IPC_dict : List (String × String)) : Option (List (String × DocMeta)) :=
  let title_lengths := (sum_squares title_postings_list).map (fun e => (e.1, sqrt e.2))
  let abstract_lengths := (sum_squares abstract_postings_list).map (fun e => (e.1, sqrt e.2))
  IPC_dict.foldr
    (fun di acc => do
      let md ← acc
      let tl ← title_lengths.lookup di.1
      pure ((di.1, ⟨tl, (abstract_lengths.lookup di.1).getD 0, di.2⟩) :: md))
    (some [])

/-! ## Helper lemmas -/

/-- Transitivity of the boolean descending-score comparison used by the two
`sorted(..., reverse=True)` calls. -/
theorem score_le_trans : ∀ (a b c : String × ℚ),
    decide (b.2 ≤ a.2) = true → decide (c.2 ≤ b.2) = true → decide (c.2 ≤ a.2) = true := by
  intro a b c h1 h2
  simp only [decide_eq_true_eq] at h1 h2 ⊢
  exact le_trans h2 h1

/-- Totality of the boolean descending-score comparison. -/
theorem score_le_total : ∀ (a b : String × ℚ),
    (decide (b.2 ≤ a.2) || decide (a.2 ≤ b.2)) = true := by
  intro a b
  simp only [Bool.or_eq_true, decide_eq_true_eq]
  exact le_total b.2 a.2

/-- Looking up a key of a map whose values are a function of the key alone:
the result is that function of the key, whenever the key is present. -/
theorem lookup_map_of_mem_keys (md : List (String × DocMeta))
    (f : String → ℚ) (d : String) (h : d ∈ md.map Prod.fst) :
    (md.map (fun e => (e.1, f e.1))).lookup d = some (f d) := by
  induction md with
  | nil => simp at h
  | cons hd tl ih =>
    by_cases hd1 : d = hd.1
    · have hb : (d == hd.1) = true := by simpa using hd1
      rw [List.map_cons, List.lookup_cons, hb, hd1]
    · have hb : (d == hd.1) = false := by simpa using hd1
      have hmem : d ∈ tl.map Prod.fst := by
        simp only [List.map_cons, List.mem_cons] at h
        exact h.resolve_left hd1
      rw [List.map_cons, List.lookup_cons, hb]
      exact ih hmem

/-- `information_need_dict` rewrites exactly the value stored under the
`description` key, dropping its first 33 characters. -/
theorem lookup_information_need_dict (temp : List (String × String)) :
    (information_need_dict temp).lookup "description"
      = (temp.lookup "description").map (fun s => String.mk (s.data.drop 33)) := by
  induction temp with
  | nil => simp [information_need_dict]
  | cons hd tl ih =>
    obtain ⟨k, v⟩ := hd
    simp only [information_need_dict, List.map_cons] at ih ⊢
    by_cases h : k = "description"
    · subst h
      rw [if_pos rfl, List.lookup_cons, List.lookup_cons]
      simp
    · have hb : (("description" : String) == k) = false := by
        simpa using fun he => h he.symm
      rw [if_neg h, List.lookup_cons, List.lookup_cons, hb]
      exact ih

/-! ## Claim C10 -/

/-- Claim C10: the description text that `process_queries` normalizes and
scores against the Abstract field is the raw description string with its
first 33 characters removed, unconditionally — `InformationNeed.__init__`
applies `temp_dict[key][33:]` to every `description` value, whether or not
it begins with the assumed 33-character boilerplate
("Relevant documents will describe "). -/
theorem C10_description_drop (normalize : String → List String)
    (temp : List (String × String)) (s : String)
    (h : temp.lookup "description" = some s) :
    query_description_terms normalize (information_need_dict temp)
      = normalize (String.mk (s.data.drop 33)) := by
  unfold query_description_terms
  rw [lookup_information_need_dict, h]
  rfl

/-- Witness for C10 at a concrete query whose description does not begin
with the 33-character boilerplate: its first 33 characters (here the whole
10-character string) are still dropped before normalization. -/
theorem C10_witness :
    query_description_terms (fun str => [str])
      (information_need_dict [("title", "t"), ("description", "short text")])
      = [String.mk ("short text".data.drop 33)] :=
  C10_description_drop (fun str => [str]) [("title", "t"), ("description", "short text")]
    "short text" (by decide)

/-! ## Claim C3 -/

/-- Counterexample for claim C3: `docIDs_decreasing_score` with two
equal-score documents handed to it in descending-DocumentID iteration order
keeps them in that order — the tie is broken by the score map's iteration
order, not by ascending DocumentID ("A1" < "B2" but "B2" is ranked first). -/
theorem C3_cex :
    docIDs_decreasing_score [("B2", (1 : ℚ)), ("A1", (1 : ℚ))] = ["B2", "A1"]
      ∧ ("A1" : String) < "B2"
      ∧ docIDs_decreasing_score [("B2", (1 : ℚ)), ("A1", (1 : ℚ))] ≠ ["A1", "B2"] := by
  have hsorted : docIDs_decreasing_score [("B2", (1 : ℚ)), ("A1", (1 : ℚ))] = ["B2", "A1"] := by
    unfold docIDs_decreasing_score ranked_pairs
    rw [List.mergeSort_of_sorted (by decide)]
    rfl
  refine ⟨hsorted, String.lt_iff_toList_lt.mpr (by decide), by rw [hsorted]; decide⟩

/-- Claim C3 (amended): the pre-expansion ranking sorts the score map's
entries by combinedScore descending, as a stable sort: the output document
IDs are a permutation of the input's, the ranked scores are non-increasing,
and any descending-score sublist of the input survives in order (so
equal-score documents keep the score map's iteration order — which is not
necessarily ascending DocumentID). -/
theorem C3_ranking_sorted (l : List (String × ℚ)) :
    (docIDs_decreasing_score l).Perm (l.map Prod.fst)
      ∧ ((ranked_pairs l).map Prod.snd).Pairwise (fun a b => b ≤ a)
      ∧ ∀ c : List (String × ℚ), c.Pairwise (fun a b => b.2 ≤ a.2) → List.Sublist c l →
          List.Sublist c (ranked_pairs l) := by
  refine ⟨?_, ?_, ?_⟩
  · exact (List.mergeSort_perm l _).map Prod.fst
  · have hs := List.sorted_mergeSort score_le_trans score_le_total l
    exact hs.map Prod.snd (fun a b hab => by simpa using hab)
  · intro c hc hcl
    exact List.sublist_mergeSort score_le_trans score_le_total
      (hc.imp (fun hab => by simpa using hab)) hcl

/-! ## Claim C4 -/

/-- Claim C4 (code bug): `calculate_metadata` defaults the abstract vector
norm to 0 for a document with no abstract terms (second conjunct), but for a
document with no title terms it evaluates `title_lengths[docID]`, a plain
subscript that raises `KeyError` and aborts the build (modelled as `none`,
first conjunct) instead of defaulting the title norm to 0 as the
specification requires.  The square-root collaborator is instantiated with
the identity; the `none` result is independent of it. -/
theorem C4_title_norm_fatal :
    calculate_metadata (fun x => x) [] [("w", [("D1", (1 : ℚ))])] [("D1", "A")] = none
      ∧ calculate_metadata (fun x => x) [("w", [("D1", (1 : ℚ))])] [] [("D1", "A")]
          = some [("D1", ⟨1, 0, "A"⟩)] := by
  refine ⟨by decide, by decide⟩

/-! ## Claim C5 -/

/-- Helper: the combined score recorded for any metadata key is the weighted
sum of that document's two field scores. -/
theorem lookup_combined_scores (md : List (String × DocMeta))
    (t s : List (String × ℚ)) (d : String) (h : d ∈ md.map Prod.fst) :
    (combined_scores md t s).lookup d
      = some (getD t d * (5 / 100) + getD s d * (95 / 100)) :=
  lookup_map_of_mem_keys md (fun k => getD t k * (5 / 100) + getD s k * (95 / 100)) d h

/-- Claim C5: for every DocumentID present in the document metadata —
including documents with zero overlap with both query fields — the combined
score is defined and equals exactly 0.05 times the document's title field
score (0 if absent) plus 0.95 times its description field score (0 if
absent). -/
theorem C5_combined (md : List (String × DocMeta)) (t s : List (String × ℚ))
    (d : String) (m : DocMeta) (h : (d, m) ∈ md) :
    (combined_scores md t s).lookup d
      = some (5 / 100 * getD t d + 95 / 100 * getD s d) := by
  have hk : d ∈ md.map Prod.fst := List.mem_map_of_mem Prod.fst h
  rw [lookup_combined_scores md t s d hk]
  ring_nf

/-- Witness for C5 at a concrete metadata map: document "z" has no title and
no description score, yet its combined score is defined (and equal to 0). -/
theorem C5_witness :
    (combined_scores [("d1", ⟨1, 1, "A"⟩), ("z", ⟨1, 1, "Z"⟩)] [("d1", 2)] [("d1", 4)]).lookup "z"
      = some (5 / 100 * getD [("d1", 2)] "z" + 95 / 100 * getD [("d1", 4)] "z") :=
  C5_combined [("d1", ⟨1, 1, "A"⟩), ("z", ⟨1, 1, "Z"⟩)] [("d1", 2)] [("d1", 4)]
    "z" ⟨1, 1, "Z"⟩ (by decide)

/-! ## Association-list lemmas for the score maps -/

/-- Lookup distributes over append as a left-biased choice. -/
theorem lookup_append_or {β : Type} (a b : List (String × β)) (k : String) :
    (a ++ b).lookup k = ((a.lookup k).or (b.lookup k)) := by
  induction a with
  | nil => simp
  | cons hd tl ih =>
    obtain ⟨k1, v1⟩ := hd
    by_cases h : k = k1
    · have hb : (k == k1) = true := by simpa using h
      simp [List.lookup_cons, hb]
    · have hb : (k == k1) = false := by simpa using h
      simp [List.lookup_cons, hb, ih]

/-- A key outside the key list is not found. -/
theorem lookup_eq_none_of_not_mem_keys {β : Type} (m : List (String × β)) (k : String)
    (h : k ∉ m.map Prod.fst) : m.lookup k = none := by
  induction m with
  | nil => rfl
  | cons hd tl ih =>
    obtain ⟨k1, v1⟩ := hd
    simp only [List.map_cons, List.mem_cons] at h
    push_neg at h
    have hb : (k == k1) = false := by simpa using h.1
    simp only [List.lookup_cons, hb]
    exact ih h.2

/-- A key found somewhere in a map with no duplicate keys is found with
exactly its paired value. -/
theorem lookup_of_mem_of_nodup {β : Type} (m : List (String × β)) (k : String) (v : β)
    (hn : (m.map Prod.fst).Nodup) (hm : (k, v) ∈ m) : m.lookup k = some v := by
  induction m with
  | nil => simp at hm
  | cons hd tl ih =>
    obtain ⟨k1, v1⟩ := hd
    simp only [List.map_cons, List.nodup_cons] at hn
    rcases List.mem_cons.mp hm with heq | htl
    · simp only [Prod.mk.injEq] at heq
      obtain ⟨rfl, rfl⟩ := heq
      simp [List.lookup_cons]
    · by_cases h : k = k1
      · subst h
        exact absurd (List.mem_map_of_mem Prod.fst htl) hn.1
      · have hb : (k == k1) = false := by simpa using h
        simp only [List.lookup_cons, hb]
        exact ih hn.2 htl

/-- A present key is found. -/
theorem lookup_isSome_of_mem_keys {β : Type} (m : List (String × β)) (k : String)
    (h : k ∈ m.map Prod.fst) : (m.lookup k).isSome := by
  induction m with
  | nil => simp at h
  | cons hd tl ih =>
    obtain ⟨k1, v1⟩ := hd
    by_cases hk : k = k1
    · have hb : (k == k1) = true := by simpa using hk
      simp [List.lookup_cons, hb]
    · have hb : (k == k1) = false := by simpa using hk
      simp only [List.lookup_cons, hb]
      simp only [List.map_cons, List.mem_cons] at h
      exact ih (h.resolve_left hk)

/-- Effect of `addTo` on lookup: the value stored under the touched key is
incremented, every other key is untouched. -/
theorem lookup_addTo (m : List (String × ℚ)) (d : String) (x : ℚ) (k : String) :
    (addTo m d x).lookup k = (m.lookup k).map (fun w => if k = d then w + x else w) := by
  induction m with
  | nil => simp [addTo]
  | cons hd tl ih =>
    obtain ⟨k1, v1⟩ := hd
    by_cases h2 : k = k1
    · subst h2
      have hb : (k == k) = true := by simp
      by_cases h1 : k = d
      · subst h1
        simp [addTo, List.lookup_cons, hb]
      · simp [addTo, List.lookup_cons, hb, h1]
    · have hb : (k == k1) = false := by simpa using h2
      simp only [addTo, List.map_cons] at ih ⊢
      by_cases h1 : k1 = d
      · have hbd : (k == d) = false := by
          rw [← h1]
          exact hb
        simp [List.lookup_cons, hb, h1, ih, hbd]
      · simp only [if_neg h1, List.lookup_cons, hb]
        exact ih

/-- Effect of `ensureKey` on lookup: the touched key now stores its old value
or 0, every other key is untouched. -/
theorem lookup_ensureKey (m : List (String × ℚ)) (d : String) (k : String) :
    (ensureKey m d).lookup k =
      if k = d then some ((m.lookup d).getD 0) else m.lookup k := by
  unfold ensureKey
  cases hma : m.lookup d with
  | some v =>
    simp only [hma, Option.isSome_some, if_pos]
    by_cases h : k = d
    · subst h; simp [hma]
    · simp [h]
  | none =>
    simp only [hma, Option.isSome_none, Bool.false_eq_true, if_neg, ite_false]
    rw [lookup_append_or]
    by_cases h : k = d
    · subst h
      have hb : (k == k) = true := by simp
      simp [hma, List.lookup_cons, hb]
    · have hb : (k == d) = false := by simpa using h
      simp [List.lookup_cons, hb, h]

/-- One iteration of the `update_relevance` posting loop: create-if-missing
followed by increment. -/
theorem lookup_score_step (sc : List (String × ℚ)) (d0 : String) (v : ℚ) (k : String) :
    (addTo (ensureKey sc d0) d0 v).lookup k
      = if k = d0 then some ((sc.lookup d0).getD 0 + v) else sc.lookup k := by
  rw [lookup_addTo, lookup_ensureKey]
  by_cases h : k = d0
  · subst h; simp
  · simp [h]

/-- The posting fold of `update_relevance`, for an arbitrary per-posting
contribution `c`: with no duplicate document IDs in the postings list, each
document's score gains exactly its own posting's contribution. -/
theorem lookup_foldl_postings (c : ℚ → ℚ) (ps : List (String × ℚ)) :
    ∀ (sc : List (String × ℚ)), (ps.map Prod.fst).Nodup →
      ∀ k, (ps.foldl (fun sc p => addTo (ensureKey sc p.1) p.1 (c p.2)) sc).lookup k
        = match ps.lookup k with
          | some wt => some ((sc.lookup k).getD 0 + c wt)
          | none => sc.lookup k := by
  induction ps with
  | nil => intro sc hn k; rfl
  | cons hd tl ih =>
    intro sc hn k
    obtain ⟨d0, w0⟩ := hd
    simp only [List.map_cons, List.nodup_cons] at hn
    rw [List.foldl_cons, ih _ hn.2 k]
    cases htl : tl.lookup k with
    | none =>
      rw [lookup_score_step]
      by_cases h : k = d0
      · subst h
        have hb : (k == k) = true := by simp
        simp [List.lookup_cons, hb]
      · have hb : (k == d0) = false := by simpa using h
        simp [List.lookup_cons, hb, htl, h]
    | some wt =>
      have h : k ≠ d0 := by
        rintro rfl
        rw [lookup_eq_none_of_not_mem_keys _ _ hn.1] at htl
        exact Option.noConfusion htl
      rw [lookup_score_step]
      have hb : (k == d0) = false := by simpa using h
      simp [List.lookup_cons, hb, htl, h]

/-! ## Characterization of update_relevance and the per-field score fold -/

/-- Effect of one `update_relevance` call on one document's looked-up score:
if the document has a posting for the term, its score gains the posting
weight times the query term weight (for a single-term query that weight is 1
and the code adds the bare posting weight, which coincides); otherwise its
entry is untouched. -/
theorem lookup_update_relevance (log10 : ℚ → ℚ) (sc : List (String × ℚ))
    (dictionary : Field → List (String × DictEntry)) (postings_file : List Char)
    (query_terms : List String) (term : String) (single : Bool) (field : Field)
    (k : String)
    (hn : ((read_postings term dictionary postings_file field).map Prod.fst).Nodup) :
    (update_relevance log10 sc dictionary postings_file query_terms term single field).lookup k
      = match (read_postings term dictionary postings_file field).lookup k with
        | some wt => some ((sc.lookup k).getD 0 +
            wt * query_term_weight log10 dictionary query_terms term single field)
        | none => sc.lookup k := by
  cases single with
  | true =>
    have h := lookup_foldl_postings (fun x => x)
      (read_postings term dictionary postings_file field) sc hn k
    have hgoal : (update_relevance log10 sc dictionary postings_file query_terms term
          true field).lookup k
        = match (read_postings term dictionary postings_file field).lookup k with
          | some wt => some ((sc.lookup k).getD 0 + wt)
          | none => sc.lookup k := h
    rw [hgoal]
    have hq : query_term_weight log10 dictionary query_terms term true field = 1 := rfl
    rw [hq]
    cases hp : (read_postings term dictionary postings_file field).lookup k with
    | none => rfl
    | some wt => simp
  | false =>
    exact lookup_foldl_postings
      (fun x => x * query_term_weight log10 dictionary query_terms term false field)
      (read_postings term dictionary postings_file field) sc hn k

/-- `update_relevance` leaves a document untouched when no posting of the
term mentions it (no duplicate-free hypothesis needed). -/
theorem lookup_update_relevance_absent (log10 : ℚ → ℚ) (sc : List (String × ℚ))
    (dictionary : Field → List (String × DictEntry)) (postings_file : List Char)
    (query_terms : List String) (term : String) (single : Bool) (field : Field)
    (k : String)
    (h : ∀ p ∈ read_postings term dictionary postings_file field, p.1 ≠ k) :
    (update_relevance log10 sc dictionary postings_file query_terms term single field).lookup k
      = sc.lookup k := by
  have hgen : ∀ (c : ℚ → ℚ) (ps : List (String × ℚ)) (sc : List (String × ℚ)),
      (∀ p ∈ ps, p.1 ≠ k) →
      (ps.foldl (fun sc p => addTo (ensureKey sc p.1) p.1 (c p.2)) sc).lookup k
        = sc.lookup k := by
    intro c ps
    induction ps with
    | nil => intro sc hs; rfl
    | cons p rest ih =>
      intro sc hs
      rw [List.foldl_cons, ih _ (fun q hq => hs q (List.mem_cons_of_mem _ hq)),
        lookup_score_step]
      have hk : k ≠ p.1 := fun he => hs p (List.mem_cons_self _ _) he.symm
      rw [if_neg hk]
  cases single with
  | true =>
    exact hgen (fun x => x) (read_postings term dictionary postings_file field) sc h
  | false =>
    exact hgen (fun x => x * query_term_weight log10 dictionary query_terms term false field)
      (read_postings term dictionary postings_file field) sc h

/-- The fold of `update_relevance` calls over a list of query tokens: each
document's final score is its initial score plus the sum, over tokens, of the
document's stored posting weight for that token times the query term weight.
Requires each token's postings list to be duplicate-free. -/
theorem getD_foldl_terms (log10 : ℚ → ℚ)
    (dictionary : Field → List (String × DictEntry)) (postings_file : List Char)
    (query_terms : List String) (single : Bool) (field : Field)
    (ts : List String) :
    ∀ (sc : List (String × ℚ)),
      (∀ t ∈ ts, ((read_postings t dictionary postings_file field).map Prod.fst).Nodup) →
      ∀ k, getD (ts.foldl
          (fun sc t => update_relevance log10 sc dictionary postings_file query_terms t single field)
          sc) k
        = getD sc k + (ts.map (fun t =>
            getD (read_postings t dictionary postings_file field) k *
              query_term_weight log10 dictionary query_terms t single field)).sum := by
  induction ts with
  | nil => intro sc h k; simp
  | cons t0 rest ih =>
    intro sc h k
    rw [List.foldl_cons, ih _ (fun t ht => h t (List.mem_cons_of_mem _ ht)) k]
    have hu := lookup_update_relevance log10 sc dictionary postings_file query_terms t0 single
      field k (h t0 (List.mem_cons_self _ _))
    unfold getD
    rw [hu]
    cases hp : (read_postings t0 dictionary postings_file field).lookup k with
    | none => simp [hp]
    | some wt =>
      simp only [List.map_cons, List.sum_cons, hp, Option.getD_some]
      ring

/-- The per-field score map built by `process_queries`, looked up with a
default of 0: a sum over query token occurrences. -/
theorem getD_field_scores_prediv (log10 : ℚ → ℚ)
    (dictionary : Field → List (String × DictEntry)) (postings_file : List Char)
    (terms : List String) (field : Field) (k : String)
    (hn : ∀ t ∈ terms, ((read_postings t dictionary postings_file field).map Prod.fst).Nodup) :
    getD (field_scores_prediv log10 dictionary postings_file terms field) k
      = (terms.map (fun t =>
          getD (read_postings t dictionary postings_file field) k *
            query_term_weight log10 dictionary terms t (terms.length == 1) field)).sum := by
  unfold field_scores_prediv
  rw [getD_foldl_terms log10 dictionary postings_file terms (terms.length == 1) field terms _ hn k]
  simp [getD]

/-- A document mentioned in no postings list of any query token never gets a
score entry for that field. -/
theorem lookup_field_scores_prediv_none (log10 : ℚ → ℚ)
    (dictionary : Field → List (String × DictEntry)) (postings_file : List Char)
    (terms : List String) (field : Field) (k : String)
    (h : ∀ t ∈ terms, ∀ p ∈ read_postings t dictionary postings_file field, p.1 ≠ k) :
    (field_scores_prediv log10 dictionary postings_file terms field).lookup k = none := by
  unfold field_scores_prediv
  have hgen : ∀ (ts : List String) (sc : List (String × ℚ)),
      (∀ t ∈ ts, ∀ p ∈ read_postings t dictionary postings_file field, p.1 ≠ k) →
      sc.lookup k = none →
      (ts.foldl (fun sc t => update_relevance log10 sc dictionary postings_file terms t
        (terms.length == 1) field) sc).lookup k = none := by
    intro ts
    induction ts with
    | nil => intro sc hts hsc; exact hsc
    | cons t0 rest ih =>
      intro sc hts hsc
      rw [List.foldl_cons]
      refine ih _ (fun t ht => hts t (List.mem_cons_of_mem _ ht)) ?_
      rw [lookup_update_relevance_absent log10 sc dictionary postings_file terms t0 _ field k
        (hts t0 (List.mem_cons_self _ _))]
      exact hsc
  exact hgen terms [] h rfl

/-! ## Claim C1 -/

unseal Rat.mul Rat.add Rat.inv in
/-- Counterexample for claim C1: the query token list `["a", "a"]` has
exactly one distinct term (`dedup.length = 1`), the stored posting weight of
document "d" for term "a" is 1, yet the accumulated title score of "d" is 0,
not 1 — the code tests `len(title_terms) == 1` (token count, here 2), so it
takes the multi-term branch `(1 + log10(tf_query)) * idf`, and the idf of a
term occurring in every document is 0, wiping the score regardless of the
value of `log10` (the weight is multiplied by idf = 0). -/
theorem C1_cex :
    (["a", "a"] : List String).dedup.length = 1
      ∧ read_postings "a" (fun _ => [("a", ⟨0, 13, 0⟩)]) ("d,1.000000000".data) Field.Title
          = [("d", 1)]
      ∧ (field_scores_prediv (fun _ => 0) (fun _ => [("a", ⟨0, 13, 0⟩)])
            ("d,1.000000000".data) ["a", "a"] Field.Title).lookup "d" = some 0
      ∧ (0 : ℚ) ≠ 1 := by
  refine ⟨by decide, by decide, by decide, by decide⟩

/-- Claim C1 (amended): if the query's normalized token list for a field
consists of exactly one token, the query weight used for that term is 1 and
the field's accumulated score for any document, before division by the
vector norm, equals that document's raw stored posting weight for the term.
(The original claim's "exactly one distinct term" must be narrowed to
"exactly one token": the code tests `len(title_terms) == 1`.) -/
theorem C1_single_token (log10 : ℚ → ℚ) (dictionary : Field → List (String × DictEntry))
    (postings_file : List Char) (t : String) (field : Field) (d : String) (w : ℚ)
    (hn : ((read_postings t dictionary postings_file field).map Prod.fst).Nodup)
    (hm : (d, w) ∈ read_postings t dictionary postings_file field) :
    query_term_weight log10 dictionary [t] t (([t] : List String).length == 1) field = 1
      ∧ (field_scores_prediv log10 dictionary postings_file [t] field).lookup d = some w := by
  constructor
  · rfl
  · have hfold : (field_scores_prediv log10 dictionary postings_file [t] field).lookup d
        = (update_relevance log10 [] dictionary postings_file [t] t
            (([t] : List String).length == 1) field).lookup d := rfl
    rw [hfold, lookup_update_relevance _ _ _ _ _ _ _ _ _ hn,
      lookup_of_mem_of_nodup _ _ _ hn hm]
    have hq : query_term_weight log10 dictionary [t] t
        (([t] : List String).length == 1) field = 1 := rfl
    rw [hq]
    simp

unseal Rat.mul Rat.add Rat.inv in
/-- Witness for C1 at a concrete single-token query: the query weight is 1
and document "d" scores exactly its stored weight 1 (with a nonzero idf of 5
in the directory, showing no idf scaling is applied). -/
theorem C1_witness :
    query_term_weight (fun _ => 0) (fun _ => [("a", ⟨0, 13, 5⟩)]) ["a"] "a"
        ((["a"] : List String).length == 1) Field.Title = 1
      ∧ (field_scores_prediv (fun _ => 0) (fun _ => [("a", ⟨0, 13, 5⟩)])
            ("d,1.000000000".data) ["a"] Field.Title).lookup "d" = some 1 :=
  C1_single_token (fun _ => 0) (fun _ => [("a", ⟨0, 13, 5⟩)]) ("d,1.000000000".data)
    "a" Field.Title "d" 1 (by decide) (by decide)

/-! ## Claim C2 -/

unseal Rat.mul Rat.add Rat.inv in
/-- Counterexample for claim C2: for the query token list `["a", "a"]`
(term "a" repeated, idf 1, document weight 1, `log10 2` modelled as 0.301),
the code's accumulated score is 2.602 — the loop runs once per token
occurrence, adding `1 * (1 + log10 2) * 1` twice — while the claimed sum
over distinct query terms (`spec_field_score`) is 1.301; the two differ. -/
theorem C2_cex :
    getD (field_scores_prediv (fun q => if q = 2 then 301 / 1000 else 0)
        (fun _ => [("a", ⟨0, 13, 1⟩)]) ("d,1.000000000".data) ["a", "a"] Field.Title) "d"
      = 1301 / 500
    ∧ spec_field_score (fun q => if q = 2 then 301 / 1000 else 0)
        (fun _ => [("a", ⟨0, 13, 1⟩)]) ("d,1.000000000".data) ["a", "a"] Field.Title "d"
      = 1301 / 1000
    ∧ (1301 / 500 : ℚ) ≠ 1301 / 1000 := by
  refine ⟨by decide, by decide, by decide⟩

/-- Claim C2 (amended): for every query field and document, the field's
accumulated score before norm division is additive across query token
OCCURRENCES: it equals the sum, over the field's query token list (with
duplicates), of the document's stored posting weight for the token (0 when
the token is absent from the directory or the document has no posting) times
the query term weight `(1 + log10 tfQuery) * idf` (1 for a single-token
query).  A term repeated in the query therefore contributes once per
occurrence, not exactly once as originally claimed. -/
theorem C2_per_occurrence (log10 : ℚ → ℚ)
    (dictionary : Field → List (String × DictEntry)) (postings_file : List Char)
    (terms : List String) (field : Field) (k : String)
    (hn : ∀ t ∈ terms, ((read_postings t dictionary postings_file field).map Prod.fst).Nodup) :
    getD (field_scores_prediv log10 dictionary postings_file terms field) k
      = (terms.map (fun t =>
          getD (read_postings t dictionary postings_file field) k *
            query_term_weight log10 dictionary terms t (terms.length == 1) field)).sum :=
  getD_field_scores_prediv log10 dictionary postings_file terms field k hn

unseal Rat.mul Rat.add Rat.inv in
/-- Witness for C2 at the concrete repeated-token query of the
counterexample: the accumulated score equals the per-occurrence sum. -/
theorem C2_witness :
    getD (field_scores_prediv (fun q => if q = 2 then 301 / 1000 else 0)
        (fun _ => [("a", ⟨0, 13, 1⟩)]) ("d,1.000000000".data) ["a", "a"] Field.Title) "d"
      = ((["a", "a"] : List String).map (fun t =>
          getD (read_postings t (fun _ => [("a", ⟨0, 13, 1⟩)]) ("d,1.000000000".data)
              Field.Title) "d" *
            query_term_weight (fun q => if q = 2 then 301 / 1000 else 0)
              (fun _ => [("a", ⟨0, 13, 1⟩)]) ["a", "a"] t
              ((["a", "a"] : List String).length == 1) Field.Title)).sum :=
  C2_per_occurrence (fun q => if q = 2 then 301 / 1000 else 0)
    (fun _ => [("a", ⟨0, 13, 1⟩)]) ("d,1.000000000".data) ["a", "a"] Field.Title "d"
    (by decide)

/-! ## Digit strings: rendering and parsing are inverse -/

/-- Every digit character produced by `digitCh` is one of the ten digits. -/
theorem digitCh_mem (n : Nat) :
    digitCh n ∈ ['0', '1', '2', '3', '4', '5', '6', '7', '8', '9'] := by
  unfold digitCh
  rcases n with _|_|_|_|_|_|_|_|_|_|m <;> simp

/-- `chVal` inverts `digitCh` below 10. -/
theorem chVal_digitCh (n : Nat) (h : n < 10) : chVal (digitCh n) = n := by
  interval_cases n <;> rfl

/-- Every character of a rendered number is a digit character. -/
theorem natToDigits_mem (n : Nat) :
    ∀ c ∈ natToDigits n, c ∈ ['0', '1', '2', '3', '4', '5', '6', '7', '8', '9'] := by
  induction n using Nat.strong_induction_on with
  | _ n ih =>
    intro c hc
    rw [natToDigits] at hc
    by_cases h : n < 10
    · rw [if_pos h] at hc
      simp only [List.mem_singleton] at hc
      exact hc ▸ digitCh_mem n
    · rw [if_neg h] at hc
      rcases List.mem_append.mp hc with h1 | h2
      · exact ih (n / 10) (Nat.div_lt_self (by omega) (by omega)) c h1
      · simp only [List.mem_singleton] at h2
        exact h2 ▸ digitCh_mem (n % 10)

/-- Rendered numbers are never empty. -/
theorem natToDigits_ne_nil (n : Nat) : natToDigits n ≠ [] := by
  rw [natToDigits]
  by_cases h : n < 10
  · rw [if_pos h]; simp
  · rw [if_neg h]; simp

/-- The digit fold evaluates a rendered number back, from any accumulator. -/
theorem foldl_natToDigits (n : Nat) : ∀ (a : Nat),
    (natToDigits n).foldl (fun a c => 10 * a + chVal c) a
      = a * 10 ^ (natToDigits n).length + n := by
  induction n using Nat.strong_induction_on with
  | _ n ih =>
    intro a
    rw [natToDigits]
    by_cases h : n < 10
    · rw [if_pos h]
      simp [chVal_digitCh n h]
      omega
    · rw [if_neg h]
      rw [List.foldl_append, ih (n / 10) (Nat.div_lt_self (by omega) (by omega)) a]
      simp only [List.foldl_cons, List.foldl_nil, List.length_append, List.length_singleton]
      rw [chVal_digitCh (n % 10) (Nat.mod_lt n (by omega))]
      rw [pow_succ]
      have hd : 10 * (n / 10) + n % 10 = n := Nat.div_add_mod n 10
      ring_nf
      omega

/-- Parsing inverts rendering. -/
theorem parseNatChars_natToDigits (n : Nat) : parseNatChars (natToDigits n) = n := by
  unfold parseNatChars
  rw [foldl_natToDigits n 0]
  simp

/-- A number below `10 ^ k` renders in at most `k` digits (for `k ≥ 1`). -/
theorem natToDigits_length_le (k : Nat) : ∀ n, n < 10 ^ k → 1 ≤ k →
    (natToDigits n).length ≤ k := by
  induction k with
  | zero => intro n h h1; omega
  | succ k ih =>
    intro n h h1
    rw [natToDigits]
    by_cases hn : n < 10
    · rw [if_pos hn]; simp
    · rw [if_neg hn]
      have hk : 1 ≤ k := by
        by_contra hk0
        have : k = 0 := by omega
        subst this
        simp at h
        omega
      have hdiv : n / 10 < 10 ^ k := by
        rw [Nat.div_lt_iff_lt_mul (by omega)]
        calc n < 10 ^ (k + 1) := h
        _ = 10 ^ k * 10 := by rw [pow_succ]
      have := ih (n / 10) hdiv hk
      simp only [List.length_append, List.length_singleton]
      omega

/-- Leading zeros do not change the parsed value. -/
theorem parseNatChars_replicate_zero (m : Nat) (s : List Char) :
    parseNatChars (List.replicate m '0' ++ s) = parseNatChars s := by
  unfold parseNatChars
  rw [List.foldl_append]
  have h0 : (List.replicate m '0').foldl (fun a c => 10 * a + chVal c) 0 = 0 := by
    induction m with
    | zero => rfl
    | succ m ihm => simpa [List.replicate_succ, chVal]
  rw [h0]

/-! ## takeWhile and dropWhile across a separator -/

/-- takeWhile over a list whose prefix satisfies the predicate and whose next
element does not: the prefix is recovered. -/
theorem takeWhile_prefix_append (p : Char → Bool) (l : List Char) (x : Char)
    (r : List Char) (hl : ∀ c ∈ l, p c = true) (hx : p x = false) :
    (l ++ x :: r).takeWhile p = l ∧ (l ++ x :: r).dropWhile p = x :: r := by
  induction l with
  | nil => simp [List.takeWhile_cons, List.dropWhile_cons, hx]
  | cons c l ih =>
    have hc : p c = true := hl c (List.mem_cons_self _ _)
    have ihl := ih (fun d hd => hl d (List.mem_cons_of_mem _ hd))
    simp only [List.cons_append, List.takeWhile_cons, List.dropWhile_cons, hc, ihl.1, ihl.2]
    simp

/-- takeWhile of a list entirely satisfying the predicate is that list. -/
theorem takeWhile_total (p : Char → Bool) (l : List Char)
    (hl : ∀ c ∈ l, p c = true) : l.takeWhile p = l := by
  induction l with
  | nil => rfl
  | cons c l ih =>
    have hc : p c = true := hl c (List.mem_cons_self _ _)
    simp [List.takeWhile_cons, hc, ih (fun d hd => hl d (List.mem_cons_of_mem _ hd))]

/-! ## Character classes of the rendered weights -/

/-- A digit character is not a separator: not the decimal point, not the
comma, not whitespace. -/
theorem digit_char_props (c : Char) (h : c ∈ ['0', '1', '2', '3', '4', '5', '6', '7', '8', '9']) :
    c ≠ '.' ∧ c ≠ ',' ∧ isSpaceCh c = false := by
  simp only [List.mem_cons, List.not_mem_nil, or_false] at h
  rcases h with rfl | rfl | rfl | rfl | rfl | rfl | rfl | rfl | rfl | rfl <;> decide

/-- Every character of a formatted weight is the decimal point or a digit. -/
theorem fmt9_chars (q : ℚ) :
    ∀ c ∈ fmt9 q, c = '.' ∨ c ∈ ['0', '1', '2', '3', '4', '5', '6', '7', '8', '9'] := by
  intro c hc
  unfold fmt9 at hc
  simp only [List.mem_append, List.mem_cons, List.mem_replicate] at hc
  rcases hc with h1 | h2 | ⟨-, rfl⟩ | h4
  · exact Or.inr (natToDigits_mem _ c h1)
  · exact Or.inl h2
  · simp
  · exact Or.inr (natToDigits_mem _ c h4)

/-- Parsing a formatted weight recovers the value rounded to nine fractional
decimal digits. -/
theorem parseFloat_fmt9 (q : ℚ) : parseFloat (fmt9 q) = round9 q := by
  have hlen : (natToDigits ((round (q * 1000000000)).toNat % 1000000000)).length ≤ 9 := by
    refine natToDigits_length_le 9 _ ?_ (by norm_num)
    have : (round (q * 1000000000)).toNat % 1000000000 < 1000000000 :=
      Nat.mod_lt _ (by norm_num)
    calc (round (q * 1000000000)).toNat % 1000000000 < 1000000000 := this
    _ ≤ 10 ^ 9 := by norm_num
  have hdig : ∀ c ∈ natToDigits ((round (q * 1000000000)).toNat / 1000000000),
      (fun c => decide (c ≠ '.')) c = true := by
    intro c hc
    simpa using (digit_char_props c (natToDigits_mem _ c hc)).1
  have hdot : (fun c => decide (c ≠ '.')) '.' = false := by decide
  have htw := takeWhile_prefix_append (fun c => decide (c ≠ '.'))
    (natToDigits ((round (q * 1000000000)).toNat / 1000000000)) '.'
    (List.replicate (9 - (natToDigits ((round (q * 1000000000)).toNat % 1000000000)).length) '0'
      ++ natToDigits ((round (q * 1000000000)).toNat % 1000000000)) hdig hdot
  unfold parseFloat fmt9
  dsimp only
  rw [htw.1, htw.2]
  dsimp only
  simp only [parseNatChars_natToDigits, parseNatChars_replicate_zero,
    List.length_append, List.length_replicate]
  have h9 : 9 - (natToDigits ((round (q * 1000000000)).toNat % 1000000000)).length
      + (natToDigits ((round (q * 1000000000)).toNat % 1000000000)).length = 9 := by
    omega
  rw [h9]
  unfold round9
  have key : ((round (q * 1000000000)).toNat : ℚ)
      = ((round (q * 1000000000)).toNat / 1000000000 : ℕ) * 1000000000
        + (((round (q * 1000000000)).toNat % 1000000000 : ℕ) : ℚ) := by
    have h := Nat.div_add_mod (round (q * 1000000000)).toNat 1000000000
    conv_lhs => rw [← h]
    push_cast
    ring
  have hpow : ((10 : ℚ) ^ (9 : ℕ)) = 1000000000 := by norm_num
  rw [hpow, key]
  ring

/-! ## splitWS recovers space-joined tokens -/

/-- A single whitespace-free non-empty token splits to itself. -/
theorem splitWS_token (t : List Char) (hne : t ≠ [])
    (h : ∀ c ∈ t, isSpaceCh c = false) : splitWS t = [t] := by
  induction t with
  | nil => exact absurd rfl hne
  | cons c t ih =>
    have hc : isSpaceCh c = false := h c (List.mem_cons_self _ _)
    cases t with
    | nil => simp [splitWS, hc]
    | cons d t2 =>
      have hd : isSpaceCh d = false := h d (List.mem_cons_of_mem _ (List.mem_cons_self _ _))
      have ht := ih (by simp) (fun e he => h e (List.mem_cons_of_mem _ he))
      have key : splitWS (c :: d :: t2)
          = if isSpaceCh c = true then splitWS (d :: t2)
            else match d :: t2, splitWS (d :: t2) with
              | [], _ => [[c]]
              | e :: _, ts =>
                if isSpaceCh e = true then [c] :: ts
                else match ts with
                  | [] => [[c]]
                  | u :: ts2 => (c :: u) :: ts2 := rfl
      rw [key, ht]
      simp [hc, hd]

/-- Prepending a whitespace-free non-empty token and a space yields that
token followed by the split of the remainder. -/
theorem splitWS_append (t : List Char) (hne : t ≠ [])
    (h : ∀ c ∈ t, isSpaceCh c = false) (r : List Char) :
    splitWS (t ++ ' ' :: r) = t :: splitWS r := by
  induction t with
  | nil => exact absurd rfl hne
  | cons c t ih =>
    have hc : isSpaceCh c = false := h c (List.mem_cons_self _ _)
    cases t with
    | nil =>
      have hsp : isSpaceCh ' ' = true := by decide
      simp [splitWS, hc, hsp]
    | cons d t2 =>
      have hd : isSpaceCh d = false := h d (List.mem_cons_of_mem _ (List.mem_cons_self _ _))
      have ht := ih (by simp) (fun e he => h e (List.mem_cons_of_mem _ he))
      simp only [List.cons_append] at ht ⊢
      have key : splitWS (c :: d :: (t2 ++ ' ' :: r))
          = if isSpaceCh c = true then splitWS (d :: (t2 ++ ' ' :: r))
            else match d :: (t2 ++ ' ' :: r), splitWS (d :: (t2 ++ ' ' :: r)) with
              | [], _ => [[c]]
              | e :: _, ts =>
                if isSpaceCh e = true then [c] :: ts
                else match ts with
                  | [] => [[c]]
                  | u :: ts2 => (c :: u) :: ts2 := rfl
      rw [key, ht]
      simp [hc, hd]

/-- Splitting a space-join of non-empty whitespace-free tokens recovers the
tokens. -/
theorem splitWS_joinSpace (toks : List (List Char))
    (h : ∀ tok ∈ toks, tok ≠ [] ∧ ∀ c ∈ tok, isSpaceCh c = false) :
    splitWS (joinSpace toks) = toks := by
  induction toks with
  | nil => rfl
  | cons t rest ih =>
    cases rest with
    | nil =>
      have ht := h t (List.mem_cons_self _ _)
      simpa [joinSpace] using splitWS_token t ht.1 ht.2
    | cons t2 rest2 =>
      have ht := h t (List.mem_cons_self _ _)
      have hj : joinSpace (t :: t2 :: rest2) = t ++ ' ' :: joinSpace (t2 :: rest2) := rfl
      rw [hj, splitWS_append t ht.1 ht.2, ih (fun tok htok => h tok (List.mem_cons_of_mem _ htok))]

/-! ## Round trip of one posting and one record -/

/-- Parsing a rendered posting recovers the document ID and the weight
rounded to nine fractional digits, provided the document ID contains no
comma (and, implicitly from `splitWS`, no whitespace). -/
theorem parsePosting_postingChars (d : String) (w : ℚ)
    (hd : ∀ c ∈ d.data, c ≠ ',') :
    parsePosting (postingChars (d, w)) = (d, round9 w) := by
  have hdb : ∀ c ∈ d.data, (fun c => decide (c ≠ ',')) c = true := by
    intro c hc
    simpa using hd c hc
  have hcomma : (fun c => decide (c ≠ ',')) ',' = false := by decide
  have htw := takeWhile_prefix_append (fun c => decide (c ≠ ',')) d.data ',' (fmt9 w) hdb hcomma
  have hfmt : ∀ c ∈ fmt9 w, (fun c => decide (c ≠ ',')) c = true := by
    intro c hc
    rcases fmt9_chars w c hc with rfl | hdig
    · decide
    · simpa using (digit_char_props c hdig).2.1
  unfold parsePosting postingChars
  dsimp only
  rw [htw.1, htw.2]
  dsimp only
  rw [takeWhile_total _ _ hfmt, parseFloat_fmt9]

/-- Splitting a rendered record recovers the rendered postings. -/
theorem splitWS_recordChars (ps : List (String × ℚ))
    (h : ∀ p ∈ ps, ∀ c ∈ p.1.data, isSpaceCh c = false ∧ c ≠ ',') :
    splitWS (recordChars ps) = ps.map postingChars := by
  unfold recordChars
  refine splitWS_joinSpace (ps.map postingChars) ?_
  intro tok htok
  obtain ⟨p, hp, rfl⟩ := List.mem_map.mp htok
  constructor
  · unfold postingChars
    intro habs
    exact absurd (congrArg List.length habs) (by simp)
  · intro c hc
    unfold postingChars at hc
    rcases List.mem_append.mp hc with h1 | h2
    · exact (h p hp c h1).1
    · rcases List.mem_cons.mp h2 with rfl | h3
      · decide
      · rcases fmt9_chars p.2 c h3 with rfl | hdig
        · decide
        · exact (digit_char_props c hdig).2.2

/-- Reading one record back gives the written postings with weights rounded
to nine fractional digits. -/
theorem map_parsePosting_recordChars (ps : List (String × ℚ))
    (h : ∀ p ∈ ps, ∀ c ∈ p.1.data, isSpaceCh c = false ∧ c ≠ ',') :
    (splitWS (recordChars ps)).map parsePosting
      = ps.map (fun p => (p.1, round9 p.2)) := by
  rw [splitWS_recordChars ps h, List.map_map]
  refine List.map_congr_left ?_
  intro p hp
  have : parsePosting (postingChars (p.1, p.2)) = (p.1, round9 p.2) :=
    parsePosting_postingChars p.1 p.2 (fun c hc => (h p hp c hc).2)
  simpa using this

/-! ## The write loop: offsets, lengths and directory entries -/

/-- A stored segment survives appending to the file. -/
theorem seg_stable (l ext : List Char) (p n : Nat) (h : p + n ≤ l.length) :
    ((l ++ ext).drop p).take n = (l.drop p).take n := by
  rw [List.drop_append_eq_append_drop]
  have hp0 : p - l.length = 0 := by omega
  rw [hp0, List.drop_zero]
  rw [List.take_append_of_le_length]
  have := List.length_drop p l
  omega

/-- `writeField` only appends to the file. -/
theorem writeField_file_prefix (log10 : ℚ → ℚ) (big_N : Nat) :
    ∀ (ps : List (String × List (String × ℚ))) (st : WriteState),
      ∃ ext, (writeField log10 big_N st ps).file = st.file ++ ext := by
  intro ps
  induction ps with
  | nil => intro st; exact ⟨[], by simp [writeField]⟩
  | cons tp rest ih =>
    intro st
    obtain ⟨ext, hext⟩ := ih
      { file := st.file ++ recordChars tp.2 ++ ['\n']
        dir := st.dir ++
          [(tp.1, ⟨st.file.length, (recordChars tp.2).length,
            idf_docs log10 tp.2.length big_N⟩)] }
    refine ⟨(recordChars tp.2 ++ ['\n']) ++ ext, ?_⟩
    show (writeField log10 big_N _ rest).file = _
    rw [hext]
    simp [List.append_assoc]

/-- `writeField` only appends to the directory, and appends exactly the keys
of the postings it was given. -/
theorem writeField_dir_append (log10 : ℚ → ℚ) (big_N : Nat) :
    ∀ (ps : List (String × List (String × ℚ))) (st : WriteState),
      ∃ ext, (writeField log10 big_N st ps).dir = st.dir ++ ext
        ∧ ext.map Prod.fst = ps.map Prod.fst := by
  intro ps
  induction ps with
  | nil => intro st; exact ⟨[], by simp [writeField]⟩
  | cons tp rest ih =>
    intro st
    obtain ⟨ext, hext, hkeys⟩ := ih
      { file := st.file ++ recordChars tp.2 ++ ['\n']
        dir := st.dir ++
          [(tp.1, ⟨st.file.length, (recordChars tp.2).length,
            idf_docs log10 tp.2.length big_N⟩)] }
    refine ⟨(tp.1, ⟨st.file.length, (recordChars tp.2).length,
        idf_docs log10 tp.2.length big_N⟩) :: ext, ?_, ?_⟩
    · show (writeField log10 big_N _ rest).dir = _
      rw [hext]
      simp
    · simp [hkeys]

/-- Main correctness of the write loop: under fresh, duplicate-free term
keys, every written term gets a directory entry whose recorded offset and
length delimit exactly that term's rendered record in the final file. -/
theorem writeField_entry (log10 : ℚ → ℚ) (big_N : Nat) :
    ∀ (ps : List (String × List (String × ℚ))) (st : WriteState),
      (ps.map Prod.fst).Nodup →
      (∀ t ∈ ps.map Prod.fst, st.dir.lookup t = none) →
      ∀ tp ∈ ps, ∃ e : DictEntry,
        (writeField log10 big_N st ps).dir.lookup tp.1 = some e
        ∧ e.pointer + e.byteLen ≤ (writeField log10 big_N st ps).file.length
        ∧ (((writeField log10 big_N st ps).file.drop e.pointer).take e.byteLen)
            = recordChars tp.2 := by
  intro ps
  induction ps with
  | nil => intro st h1 h2 tp htp; simp at htp
  | cons tp0 rest ih =>
    intro st hnodup hfresh tp htp
    simp only [List.map_cons, List.nodup_cons] at hnodup
    rcases List.mem_cons.mp htp with rfl | hrest
    · refine ⟨⟨st.file.length, (recordChars tp.2).length,
        idf_docs log10 tp.2.length big_N⟩, ?_, ?_, ?_⟩
      · show (writeField log10 big_N _ rest).dir.lookup tp.1 = _
        obtain ⟨ext, hext, -⟩ := writeField_dir_append log10 big_N rest
          { file := st.file ++ recordChars tp.2 ++ ['\n']
            dir := st.dir ++
              [(tp.1, ⟨st.file.length, (recordChars tp.2).length,
                idf_docs log10 tp.2.length big_N⟩)] }
        rw [hext]
        show ((st.dir ++ _) ++ ext).lookup tp.1 = _
        rw [lookup_append_or, lookup_append_or]
        rw [hfresh tp.1 (by simp)]
        have hone : ([(tp.1, (⟨st.file.length, (recordChars tp.2).length,
            idf_docs log10 tp.2.length big_N⟩ : DictEntry))]).lookup tp.1
            = some ⟨st.file.length, (recordChars tp.2).length,
              idf_docs log10 tp.2.length big_N⟩ := by
          simp [List.lookup_cons]
        rw [hone]
        rfl
      · obtain ⟨ext, hext⟩ := writeField_file_prefix log10 big_N rest
          { file := st.file ++ recordChars tp.2 ++ ['\n']
            dir := st.dir ++
              [(tp.1, ⟨st.file.length, (recordChars tp.2).length,
                idf_docs log10 tp.2.length big_N⟩)] }
        show _ ≤ (writeField log10 big_N _ rest).file.length
        rw [hext]
        simp only [List.length_append, List.length_cons, List.length_nil]
        omega
      · obtain ⟨ext, hext⟩ := writeField_file_prefix log10 big_N rest
          { file := st.file ++ recordChars tp.2 ++ ['\n']
            dir := st.dir ++
              [(tp.1, ⟨st.file.length, (recordChars tp.2).length,
                idf_docs log10 tp.2.length big_N⟩)] }
        show (((writeField log10 big_N _ rest).file.drop st.file.length).take
          (recordChars tp.2).length) = _
        rw [hext]
        have hassoc : st.file ++ recordChars tp.2 ++ ['\n'] ++ ext
            = st.file ++ (recordChars tp.2 ++ (['\n'] ++ ext)) := by
          simp [List.append_assoc]
        rw [hassoc, List.drop_left, List.take_left]
    · have hfresh2 : ∀ t ∈ rest.map Prod.fst,
          (st.dir ++ [(tp0.1, (⟨st.file.length, (recordChars tp0.2).length,
            idf_docs log10 tp0.2.length big_N⟩ : DictEntry))]).lookup t = none := by
        intro t ht
        rw [lookup_append_or, hfresh t (by simp [ht])]
        have htne : t ≠ tp0.1 := by
          rintro rfl
          exact hnodup.1 ht
        have hbe : (t == tp0.1) = false := by simpa using htne
        simp [List.lookup_cons, hbe]
      exact ih
        { file := st.file ++ recordChars tp0.2 ++ ['\n']
          dir := st.dir ++
            [(tp0.1, ⟨st.file.length, (recordChars tp0.2).length,
              idf_docs log10 tp0.2.length big_N⟩)] }
        hnodup.2 hfresh2 tp hrest

/-- Round trip through the store, shared helper: for either field, reading
any written term back through its directory entry returns the written
postings with weights rounded to nine fractional digits. -/
theorem read_write_postings (log10 : ℚ → ℚ) (big_N : Nat)
    (title_postings abstract_postings : List (String × List (String × ℚ)))
    (field : Field)
    (hn : ((match field with
      | Field.Title => title_postings
      | Field.Abstract => abstract_postings).map Prod.fst).Nodup)
    (hc : ∀ tp ∈ (match field with
      | Field.Title => title_postings
      | Field.Abstract => abstract_postings), ∀ p ∈ tp.2,
        ∀ c ∈ p.1.data, isSpaceCh c = false ∧ c ≠ ',')
    (tp : String × List (String × ℚ))
    (htp : tp ∈ (match field with
      | Field.Title => title_postings
      | Field.Abstract => abstract_postings)) :
    read_postings tp.1 (write_postings log10 title_postings abstract_postings big_N).2
        (write_postings log10 title_postings abstract_postings big_N).1 field
      = tp.2.map (fun p => (p.1, round9 p.2)) := by
  cases field with
  | Title =>
    obtain ⟨e, hl, hb, hs⟩ := writeField_entry log10 big_N title_postings ⟨[], []⟩ hn
      (fun t _ => rfl) tp htp
    obtain ⟨ext, hext⟩ := writeField_file_prefix log10 big_N abstract_postings
      ⟨(writeField log10 big_N ⟨[], []⟩ title_postings).file, []⟩
    unfold write_postings read_postings
    dsimp only
    rw [hl]
    dsimp only
    rw [hext]
    dsimp only
    rw [seg_stable _ _ _ _ hb, hs]
    exact map_parsePosting_recordChars tp.2 (hc tp htp)
  | Abstract =>
    obtain ⟨e, hl, hb, hs⟩ := writeField_entry log10 big_N abstract_postings
      ⟨(writeField log10 big_N ⟨[], []⟩ title_postings).file, []⟩ hn
      (fun t _ => rfl) tp htp
    unfold write_postings read_postings
    dsimp only
    rw [hl]
    dsimp only
    rw [hs]
    exact map_parsePosting_recordChars tp.2 (hc tp htp)

/-! ## Claim C7 -/

/-- Claim C7: round trip through the postings store.  For every per-field
postings mapping written by `write_postings`, reading back any written term —
seeking to that term's recorded byte offset and reading exactly its recorded
byte length, as `read_postings` does — returns exactly the written sequence
of (DocumentID, weight) pairs for that term, with each weight equal to the
stored value rounded to nine fractional decimal digits.  Hypotheses: within
the field, term keys are unique (Python dict keys); document IDs contain no
whitespace and no comma (they are `.xml` file names); weights are
non-negative (they are lnc weights ≥ 1). -/
theorem C7_roundtrip (log10 : ℚ → ℚ) (big_N : Nat)
    (title_postings abstract_postings : List (String × List (String × ℚ)))
    (field : Field)
    (hn : ((match field with
      | Field.Title => title_postings
      | Field.Abstract => abstract_postings).map Prod.fst).Nodup)
    (hc : ∀ tp ∈ (match field with
      | Field.Title => title_postings
      | Field.Abstract => abstract_postings), ∀ p ∈ tp.2,
        (∀ c ∈ p.1.data, isSpaceCh c = false ∧ c ≠ ',') ∧ 0 ≤ p.2)
    (tp : String × List (String × ℚ))
    (htp : tp ∈ (match field with
      | Field.Title => title_postings
      | Field.Abstract => abstract_postings)) :
    read_postings tp.1 (write_postings log10 title_postings abstract_postings big_N).2
        (write_postings log10 title_postings abstract_postings big_N).1 field
      = tp.2.map (fun p => (p.1, round9 p.2)) :=
  read_write_postings log10 big_N title_postings abstract_postings field hn
    (fun tp2 htp2 p hp => (hc tp2 htp2 p hp).1) tp htp

unseal Rat.mul Rat.add Rat.inv Rat.sub in
/-- Witness for C7 at a concrete two-field index: the abstract-field term
"b", written after both title records, reads back to exactly its written
posting with the weight rounded to nine decimals. -/
theorem C7_witness :
    read_postings "b"
        (write_postings (fun _ => 0) [("a", [("d1", 1), ("d2", 3 / 2)])]
          [("b", [("d1", 1)])] 2).2
        (write_postings (fun _ => 0) [("a", [("d1", 1), ("d2", 3 / 2)])]
          [("b", [("d1", 1)])] 2).1
        Field.Abstract
      = [("d1", round9 1)] :=
  C7_roundtrip (fun _ => 0) 2 [("a", [("d1", 1), ("d2", 3 / 2)])] [("b", [("d1", 1)])]
    Field.Abstract (by decide) (by decide) ("b", [("d1", 1)]) (by decide)

/-! ## Claim C6 -/

/-- The re-scoring and descending re-sort at the end of `expand_query`: for
any duplicate-free candidate list, the output contains exactly the
candidates, each exactly once, in descending order of their looked-up
scores. -/
theorem expand_sort_spec (doc_scores : List (String × ℚ)) (l : List String)
    (hl : l.Nodup) :
    (∀ d, d ∈ ((l.map (fun d => (d, getD doc_scores d))).mergeSort
        (fun a b => decide (b.2 ≤ a.2))).map Prod.fst ↔ d ∈ l)
    ∧ (((l.map (fun d => (d, getD doc_scores d))).mergeSort
        (fun a b => decide (b.2 ≤ a.2))).map Prod.fst).Nodup
    ∧ ((((l.map (fun d => (d, getD doc_scores d))).mergeSort
        (fun a b => decide (b.2 ≤ a.2))).map Prod.fst).map (fun d => getD doc_scores d)).Pairwise
        (fun a b => b ≤ a) := by
  have hperm := List.mergeSort_perm (l.map (fun d => (d, getD doc_scores d)))
    (fun a b => decide (b.2 ≤ a.2))
  have hpermf := hperm.map Prod.fst
  have hkeys : ((l.map (fun d => (d, getD doc_scores d))).map Prod.fst) = l := by
    have hfe : (Prod.fst ∘ fun d : String => (d, getD doc_scores d)) = id :=
      funext (fun d => rfl)
    rw [List.map_map, hfe, List.map_id]
  rw [hkeys] at hpermf
  refine ⟨?_, ?_, ?_⟩
  · intro d
    constructor
    · intro hd
      exact hpermf.mem_iff.mp hd
    · intro hd
      exact hpermf.mem_iff.mpr hd
  · exact (hpermf.nodup_iff).mpr hl
  · have hsorted := List.sorted_mergeSort score_le_trans score_le_total
      (l.map (fun d => (d, getD doc_scores d)))
    have hsnd := hsorted.map Prod.snd
      (S := fun a b => b ≤ a) (fun a b hab => by simpa using hab)
    have hmapeq : (((l.map (fun d => (d, getD doc_scores d))).mergeSort
        (fun a b => decide (b.2 ≤ a.2))).map Prod.fst).map (fun d => getD doc_scores d)
        = ((l.map (fun d => (d, getD doc_scores d))).mergeSort
            (fun a b => decide (b.2 ≤ a.2))).map Prod.snd := by
      rw [List.map_map]
      refine List.map_congr_left ?_
      intro q hq
      have hq2 := List.mem_mergeSort.mp hq
      obtain ⟨d2, _, rfl⟩ := List.mem_map.mp hq2
      rfl
    rw [hmapeq]
    exact hsnd

/-- Claim C6: the expanded candidate sequence returned by `expand_query`
consists of exactly the DocumentIDs whose classificationCode belongs to the
set of codes found among the first 20 documents of the input ranking (all of
them when the corpus holds fewer than 20), each appearing exactly once, each
re-scored with its already-computed combined score (0 if it has none), and
sorted by that score in descending order.  Hypotheses: metadata keys are
unique (a Python dict) and the top-20 ranked documents are present in the
metadata (otherwise the Python code would raise `KeyError` when collecting
their codes). -/
theorem C6_expand (sorted_docIDs : List String) (doc_scores : List (String × ℚ))
    (docs_metadata : List (String × DocMeta))
    (hmk : (docs_metadata.map Prod.fst).Nodup)
    (htop : ∀ d ∈ sorted_docIDs.take 20, ((docs_metadata.lookup d).isSome)) :
    (∀ d, d ∈ expand_query sorted_docIDs doc_scores docs_metadata ↔
        ∃ m : DocMeta, (d, m) ∈ docs_metadata ∧
          m.ipc ∈ (sorted_docIDs.take 20).map (fun d2 => metaIpc docs_metadata d2))
      ∧ (expand_query sorted_docIDs doc_scores docs_metadata).Nodup
      ∧ ((expand_query sorted_docIDs doc_scores docs_metadata).map
          (fun d => getD doc_scores d)).Pairwise (fun a b => b ≤ a) := by
  have hsub : ((docs_metadata.filter (fun e =>
      (((sorted_docIDs.take 20).map (fun d => metaIpc docs_metadata d))).contains
        e.2.ipc))).Sublist docs_metadata := List.filter_sublist _
  have hnd : ((docs_metadata.filter (fun e =>
      (((sorted_docIDs.take 20).map (fun d => metaIpc docs_metadata d))).contains
        e.2.ipc)).map Prod.fst).Nodup := (hsub.map Prod.fst).nodup hmk
  have hspec := expand_sort_spec doc_scores
    ((docs_metadata.filter (fun e =>
      (((sorted_docIDs.take 20).map (fun d => metaIpc docs_metadata d))).contains
        e.2.ipc)).map Prod.fst) hnd
  refine ⟨?_, hspec.2.1, hspec.2.2⟩
  intro d
  rw [show (d ∈ expand_query sorted_docIDs doc_scores docs_metadata) =
      (d ∈ ((((docs_metadata.filter (fun e =>
        (((sorted_docIDs.take 20).map (fun d => metaIpc docs_metadata d))).contains
          e.2.ipc)).map Prod.fst).map (fun d => (d, getD doc_scores d))).mergeSort
        (fun a b => decide (b.2 ≤ a.2))).map Prod.fst) from rfl]
  rw [hspec.1 d]
  simp only [List.mem_map, List.mem_filter]
  constructor
  · rintro ⟨e, ⟨he, hcont⟩, rfl⟩
    refine ⟨e.2, by simpa using he, ?_⟩
    have hcont2 : e.2.ipc ∈ (sorted_docIDs.take 20).map (fun d => metaIpc docs_metadata d) := by
      simpa [List.map_take] using hcont
    exact List.mem_map.mp hcont2
  · rintro ⟨m, hm, hipc⟩
    have hipc2 : m.ipc ∈ (sorted_docIDs.take 20).map (fun d => metaIpc docs_metadata d) :=
      List.mem_map.mpr hipc
    refine ⟨(d, m), ⟨hm, ?_⟩, rfl⟩
    simpa [List.map_take] using hipc2

/-- Witness for C6 at a concrete corpus of three documents: the ranking
["d1"] puts code "X" into the top-20 code set, so the expansion is exactly
the two "X"-classified documents, each once, in descending score order. -/
theorem C6_witness :
    (∀ d, d ∈ expand_query ["d1"] [("d1", 2), ("d3", 5)]
        [("d1", ⟨1, 1, "X"⟩), ("d2", ⟨1, 1, "Y"⟩), ("d3", ⟨1, 1, "X"⟩)] ↔
        ∃ m : DocMeta, (d, m) ∈ [("d1", (⟨1, 1, "X"⟩ : DocMeta)), ("d2", ⟨1, 1, "Y"⟩),
            ("d3", ⟨1, 1, "X"⟩)] ∧
          m.ipc ∈ ((["d1"] : List String).take 20).map
            (fun d2 => metaIpc [("d1", ⟨1, 1, "X"⟩), ("d2", ⟨1, 1, "Y"⟩),
              ("d3", ⟨1, 1, "X"⟩)] d2))
      ∧ (expand_query ["d1"] [("d1", 2), ("d3", 5)]
          [("d1", ⟨1, 1, "X"⟩), ("d2", ⟨1, 1, "Y"⟩), ("d3", ⟨1, 1, "X"⟩)]).Nodup
      ∧ ((expand_query ["d1"] [("d1", 2), ("d3", 5)]
          [("d1", ⟨1, 1, "X"⟩), ("d2", ⟨1, 1, "Y"⟩), ("d3", ⟨1, 1, "X"⟩)]).map
          (fun d => getD [("d1", 2), ("d3", 5)] d)).Pairwise (fun a b => b ≤ a) :=
  C6_expand ["d1"] [("d1", 2), ("d3", 5)]
    [("d1", ⟨1, 1, "X"⟩), ("d2", ⟨1, 1, "Y"⟩), ("d3", ⟨1, 1, "X"⟩)]
    (by decide) (by decide)

/-! ## The index builder: preliminary postings characterization -/

/-- Lookup through the keyed in-place update performed by `addPosting` on a
present term. -/
theorem lookup_addPosting_map (m : List (String × List String)) (w d t : String) :
    ((m.map (fun e => if e.1 = w then (e.1, e.2 ++ [d]) else e)).lookup t)
      = (m.lookup t).map (fun v => if t = w then v ++ [d] else v) := by
  induction m with
  | nil => simp
  | cons hd tl ih =>
    obtain ⟨k1, v1⟩ := hd
    by_cases h2 : t = k1
    · subst h2
      have hb : (t == t) = true := by simp
      by_cases h1 : t = w
      · subst h1
        simp [List.lookup_cons, hb]
      · simp [List.lookup_cons, hb, h1]
    · have hb : (t == k1) = false := by simpa using h2
      by_cases h1 : k1 = w
      · have hbw : (t == w) = false := by
          rw [← h1]
          exact hb
        simp only [List.map_cons, h1, if_pos]
        simp only [List.lookup_cons, hb] at ih ⊢
        simp [ih, hbw]
      · simp only [List.map_cons, if_neg h1, List.lookup_cons, hb]
        exact ih

/-- A key with no entry is absent from the key list. -/
theorem not_mem_keys_of_lookup_eq_none {β : Type} (m : List (String × β)) (k : String)
    (h : m.lookup k = none) : k ∉ m.map Prod.fst := by
  intro hmem
  have := lookup_isSome_of_mem_keys m k hmem
  rw [h] at this
  exact Bool.noConfusion this

/-- Effect of `addPosting` on one term's accumulated document list: the
touched term gains the document ID at the end, all other terms keep their
lists. -/
theorem lookup_addPosting (m : List (String × List String)) (w d t : String) :
    (((addPosting m w d).lookup t).getD [])
      = (((m.lookup t).getD []) ++ (if t = w then [d] else [])) := by
  unfold addPosting
  cases hw : m.lookup w with
  | some v =>
    simp only [hw, Option.isSome_some, if_pos]
    rw [lookup_addPosting_map]
    cases ht : m.lookup t with
    | none =>
      have htw : t ≠ w := by
        rintro rfl
        rw [hw] at ht
        exact Option.noConfusion ht
      simp [htw]
    | some u =>
      by_cases htw : t = w
      · simp [htw]
      · simp [htw]
  | none =>
    simp only [hw, Option.isSome_none, Bool.false_eq_true, if_false, ite_false]
    rw [lookup_append_or]
    by_cases htw : t = w
    · subst htw
      have hb : (t == t) = true := by simp
      simp [hw, List.lookup_cons, hb]
    · have hb : (t == w) = false := by simpa using htw
      simp [List.lookup_cons, hb, htw]

/-- `addPosting` preserves duplicate-free term keys. -/
theorem addPosting_keys_nodup (m : List (String × List String)) (w d : String)
    (h : (m.map Prod.fst).Nodup) : ((addPosting m w d).map Prod.fst).Nodup := by
  unfold addPosting
  cases hw : m.lookup w with
  | some v =>
    simp only [hw, Option.isSome_some, if_pos]
    have hkeys : ((m.map (fun e => if e.1 = w then (e.1, e.2 ++ [d]) else e)).map Prod.fst)
        = m.map Prod.fst := by
      rw [List.map_map]
      refine List.map_congr_left ?_
      intro e _
      by_cases he : e.1 = w <;> simp [he]
    rw [hkeys]
    exact h
  | none =>
    simp only [hw, Option.isSome_none, Bool.false_eq_true, if_false, ite_false]
    rw [List.map_append]
    refine List.Nodup.append h (by simp) ?_
    intro a ha hb
    simp only [List.map_cons, List.map_nil, List.mem_singleton] at hb
    subst hb
    exact not_mem_keys_of_lookup_eq_none m a hw ha

/-- Effect of the per-field word loop of `index_doc` on one term: the term's
list gains one copy of the document ID per occurrence of the term among the
words, appended at the end. -/
theorem lookup_indexWords (ws : List String) :
    ∀ (m : List (String × List String)) (d t : String),
      (((indexWords m ws d).lookup t).getD [])
        = (((m.lookup t).getD []) ++ List.replicate (ws.count t) d) := by
  induction ws with
  | nil => intro m d t; simp [indexWords]
  | cons w ws ih =>
    intro m d t
    have hstep : indexWords m (w :: ws) d = indexWords (addPosting m w d) ws d := rfl
    rw [hstep, ih (addPosting m w d) d t, lookup_addPosting]
    by_cases htw : t = w
    · subst htw
      rw [if_pos rfl, List.append_assoc]
      have hc : ((t :: ws).count t) = ws.count t + 1 := by simp
      rw [hc, List.replicate_succ]
      rfl
    · rw [if_neg htw, List.append_nil]
      have hc : ((w :: ws).count t) = ws.count t := by
        simp [List.count_cons, htw]
      rw [hc]

/-- `indexWords` preserves duplicate-free term keys. -/
theorem indexWords_keys_nodup (ws : List String) :
    ∀ (m : List (String × List String)) (d : String),
      (m.map Prod.fst).Nodup → ((indexWords m ws d).map Prod.fst).Nodup := by
  induction ws with
  | nil => intro m d h; exact h
  | cons w ws ih =>
    intro m d h
    exact ih (addPosting m w d) d (addPosting_keys_nodup m w d h)

/-- The per-term document list built by `index_all_docs`: for the title
field, the concatenation over documents, in input order, of one copy of the
document's ID per occurrence of the term in its title tokens; likewise for
the abstract field with abstract tokens. -/
theorem lookup_index_all_docs (docs : List BuildDoc) :
    ∀ (tm am : List (String × List String)) (ipcs : List (String × String)) (t : String),
      ((((docs.foldl (fun acc doc =>
          (indexWords acc.1 doc.titleWords doc.docID,
           indexWords acc.2.1 doc.abstractWords doc.docID,
           acc.2.2 ++ [(doc.docID, doc.ipc)])) (tm, am, ipcs)).1).lookup t).getD [])
        = ((tm.lookup t).getD []) ++
            (docs.map (fun doc => List.replicate (doc.titleWords.count t) doc.docID)).flatten
      ∧ ((((docs.foldl (fun acc doc =>
          (indexWords acc.1 doc.titleWords doc.docID,
           indexWords acc.2.1 doc.abstractWords doc.docID,
           acc.2.2 ++ [(doc.docID, doc.ipc)])) (tm, am, ipcs)).2.1).lookup t).getD [])
        = ((am.lookup t).getD []) ++
            (docs.map (fun doc => List.replicate (doc.abstractWords.count t) doc.docID)).flatten := by
  induction docs with
  | nil => intro tm am ipcs t; simp
  | cons doc rest ih =>
    intro tm am ipcs t
    rw [List.foldl_cons]
    have := ih (indexWords tm doc.titleWords doc.docID)
      (indexWords am doc.abstractWords doc.docID) (ipcs ++ [(doc.docID, doc.ipc)]) t
    rw [this.1, this.2, lookup_indexWords, lookup_indexWords]
    constructor
    · rw [List.map_cons, List.flatten_cons, List.append_assoc]
    · rw [List.map_cons, List.flatten_cons, List.append_assoc]

/-- Term keys of both preliminary indices are duplicate-free. -/
theorem index_all_docs_keys_nodup (docs : List BuildDoc) :
    ∀ (tm am : List (String × List String)) (ipcs : List (String × String)),
      (tm.map Prod.fst).Nodup → (am.map Prod.fst).Nodup →
      (((docs.foldl (fun acc doc =>
          (indexWords acc.1 doc.titleWords doc.docID,
           indexWords acc.2.1 doc.abstractWords doc.docID,
           acc.2.2 ++ [(doc.docID, doc.ipc)])) (tm, am, ipcs)).1).map Prod.fst).Nodup
      ∧ (((docs.foldl (fun acc doc =>
          (indexWords acc.1 doc.titleWords doc.docID,
           indexWords acc.2.1 doc.abstractWords doc.docID,
           acc.2.2 ++ [(doc.docID, doc.ipc)])) (tm, am, ipcs)).2.1).map Prod.fst).Nodup := by
  induction docs with
  | nil => intro tm am ipcs h1 h2; exact ⟨h1, h2⟩
  | cons doc rest ih =>
    intro tm am ipcs h1 h2
    rw [List.foldl_cons]
    exact ih (indexWords tm doc.titleWords doc.docID)
      (indexWords am doc.abstractWords doc.docID) (ipcs ++ [(doc.docID, doc.ipc)])
      (indexWords_keys_nodup doc.titleWords tm doc.docID h1)
      (indexWords_keys_nodup doc.abstractWords am doc.docID h2)

/-- Flattening per-document runs of document IDs over a strictly ascending
document sequence yields a non-decreasing list. -/
theorem flatten_replicate_sorted (docs : List BuildDoc)
    (hdocs : (docs.map BuildDoc.docID).Pairwise (· < ·))
    (cnt : BuildDoc → Nat) :
    ((docs.map (fun doc => List.replicate (cnt doc) doc.docID)).flatten).Pairwise (· ≤ ·) := by
  induction docs with
  | nil => simp
  | cons doc rest ih =>
    simp only [List.map_cons, List.pairwise_cons] at hdocs
    rw [List.map_cons, List.flatten_cons, List.pairwise_append]
    refine ⟨?_, ih hdocs.2, ?_⟩
    · exact List.pairwise_replicate.mpr (Or.inr le_rfl)
    · intro a ha b hb
      have ha2 : a = doc.docID := (List.eq_of_mem_replicate ha)
      subst ha2
      simp only [List.mem_flatten, List.mem_map] at hb
      obtain ⟨l2, ⟨doc2, hdoc2, rfl⟩, hbl⟩ := hb
      have hb2 : b = doc2.docID := List.eq_of_mem_replicate hbl
      subst hb2
      exact le_of_lt (hdocs.1 doc2.docID (List.mem_map_of_mem BuildDoc.docID hdoc2))

/-- The first element surviving `dropWhile` fails the predicate. -/
theorem dropWhile_head_false {α : Type} (p : α → Bool) :
    ∀ (l : List α) (y : α) (ys : List α), l.dropWhile p = y :: ys → p y = false := by
  intro l
  induction l with
  | nil => intro y ys h; simp at h
  | cons a rest ih =>
    intro y ys h
    rw [List.dropWhile_cons] at h
    by_cases hp : p a = true
    · rw [if_pos hp] at h
      exact ih y ys h
    · rw [if_neg hp] at h
      injection h with h1 h2
      subst h1
      simpa using hp

/-- Every key produced by `groupRuns` is an element of the input list. -/
theorem groupRuns_keys_mem : ∀ (n : Nat) (l : List String), l.length ≤ n →
    ∀ p ∈ groupRuns l, p.1 ∈ l := by
  intro n
  induction n with
  | zero =>
    intro l hl p hp
    have hl0 : l = [] := List.length_eq_zero.mp (by omega)
    rw [hl0] at hp
    simp [groupRuns] at hp
  | succ n ih =>
    intro l hl p hp
    cases l with
    | nil => simp [groupRuns] at hp
    | cons a rest =>
      rw [groupRuns] at hp
      rcases List.mem_cons.mp hp with rfl | htail
      · exact List.mem_cons_self _ _
      · have hlen : (rest.dropWhile (fun b => decide (b = a))).length ≤ n := by
          have := (List.dropWhile_sublist (l := rest) (fun b => decide (b = a))).length_le
          simp only [List.length_cons] at hl
          omega
        have hmem := ih (rest.dropWhile (fun b => decide (b = a))) hlen p htail
        exact List.mem_cons_of_mem _
          ((List.dropWhile_sublist _).subset hmem)

/-- On a non-decreasing input, the run keys produced by `groupRuns` are
strictly increasing. -/
theorem groupRuns_keys_sorted : ∀ (n : Nat) (l : List String), l.length ≤ n →
    l.Pairwise (· ≤ ·) → ((groupRuns l).map Prod.fst).Pairwise (· < ·) := by
  intro n
  induction n with
  | zero =>
    intro l hl _
    have hl0 : l = [] := List.length_eq_zero.mp (by omega)
    rw [hl0]
    simp [groupRuns]
  | succ n ih =>
    intro l hl hp
    cases l with
    | nil => simp [groupRuns]
    | cons a rest =>
      rw [groupRuns, List.map_cons]
      obtain ⟨hhead, htail⟩ := List.pairwise_cons.mp hp
      have hsubp : (rest.dropWhile (fun b => decide (b = a))).Pairwise (· ≤ ·) :=
        List.Pairwise.sublist (List.dropWhile_sublist _) htail
      have hlen : (rest.dropWhile (fun b => decide (b = a))).length ≤ n := by
        have := (List.dropWhile_sublist (l := rest) (fun b => decide (b = a))).length_le
        simp only [List.length_cons] at hl
        omega
      refine List.pairwise_cons.mpr ⟨?_, ih _ hlen hsubp⟩
      intro b hb
      obtain ⟨q, hq, rfl⟩ := List.mem_map.mp hb
      have hqmem : q.1 ∈ rest.dropWhile (fun b => decide (b = a)) :=
        groupRuns_keys_mem _ _ hlen q hq
      cases hdw : rest.dropWhile (fun b => decide (b = a)) with
      | nil => rw [hdw] at hqmem; simp at hqmem
      | cons y ys =>
        have hy : (decide (y = a)) = false := dropWhile_head_false _ rest y ys hdw
        have hyne : y ≠ a := by simpa using hy
        have hymem : y ∈ rest := (List.dropWhile_sublist _).subset (by rw [hdw]; simp)
        have hay : a < y := lt_of_le_of_ne (hhead y hymem) (Ne.symm hyne)
        rw [hdw] at hqmem
        rcases List.mem_cons.mp hqmem with rfl | hys
        · exact hay
        · have hyq : y ≤ q.1 := by
            have hpw : (y :: ys).Pairwise (fun x1 x2 : String => x1 ≤ x2) := by
              rw [← hdw]
              exact hsubp
            exact (List.pairwise_cons.mp hpw).1 q.1 hys
          exact lt_of_lt_of_le hay hyq

/-! ## Claim C8 -/

/-- Claim C8: given that the build processes documents in strictly ascending
DocumentID order, every term's postings list produced by
`convert_preliminary_postings` over the `index_all_docs` output — for either
field — is sorted by ascending DocumentID and mentions each DocumentID at
most once (consecutive duplicates from repeated mentions are collapsed into
one weighted posting by the run grouping). -/
theorem C8_postings_sorted (log10 : ℚ → ℚ) (docs : List BuildDoc)
    (hdocs : (docs.map BuildDoc.docID).Pairwise (· < ·)) :
    ∀ field : Field, ∀ tps : String × List (String × ℚ), tps ∈ (match field with
        | Field.Title => convert_preliminary_postings log10 (index_all_docs docs).1
        | Field.Abstract => convert_preliminary_postings log10 (index_all_docs docs).2.1) →
      ((tps.2.map Prod.fst).Pairwise (· < ·)) ∧ (tps.2.map Prod.fst).Nodup := by
  have hnodups := index_all_docs_keys_nodup docs [] [] [] (by simp) (by simp)
  intro field tps htps
  have hmain : ∀ (pre : List (String × List String)), (pre.map Prod.fst).Nodup →
      (∀ t, ((pre.lookup t).getD []).Pairwise (· ≤ ·)) →
      tps ∈ convert_preliminary_postings log10 pre →
      ((tps.2.map Prod.fst).Pairwise (· < ·)) ∧ (tps.2.map Prod.fst).Nodup := by
    intro pre hnd hsort hmem
    obtain ⟨e, he, rfl⟩ := List.mem_map.mp hmem
    have hkeys : (((groupRuns e.2).map (fun g => (g.1, lnc_from_tf log10 g.2))).map Prod.fst)
        = (groupRuns e.2).map Prod.fst := by
      rw [List.map_map]
      exact List.map_congr_left (fun g _ => rfl)
    have hlook : pre.lookup e.1 = some e.2 := lookup_of_mem_of_nodup pre e.1 e.2 hnd
      (by simpa using he)
    have he2sorted : e.2.Pairwise (· ≤ ·) := by
      have := hsort e.1
      rw [hlook] at this
      simpa using this
    have hlt : ((groupRuns e.2).map Prod.fst).Pairwise (· < ·) :=
      groupRuns_keys_sorted e.2.length e.2 le_rfl he2sorted
    constructor
    · show ((((groupRuns e.2).map (fun g => (g.1, lnc_from_tf log10 g.2))).map Prod.fst)).Pairwise _
      rw [hkeys]
      exact hlt
    · show ((((groupRuns e.2).map (fun g => (g.1, lnc_from_tf log10 g.2))).map Prod.fst)).Nodup
      rw [hkeys]
      exact hlt.imp (fun hab => ne_of_lt hab)
  cases field with
  | Title =>
    refine hmain (index_all_docs docs).1 hnodups.1 ?_ htps
    intro t
    have hchar := (lookup_index_all_docs docs [] [] [] t).1
    rw [show ((index_all_docs docs).1.lookup t)
        = (((docs.foldl (fun acc doc =>
            (indexWords acc.1 doc.titleWords doc.docID,
             indexWords acc.2.1 doc.abstractWords doc.docID,
             acc.2.2 ++ [(doc.docID, doc.ipc)])) ([], [], [])).1).lookup t) from rfl]
    rw [hchar]
    simpa using flatten_replicate_sorted docs hdocs (fun doc => doc.titleWords.count t)
  | Abstract =>
    refine hmain (index_all_docs docs).2.1 hnodups.2 ?_ htps
    intro t
    have hchar := (lookup_index_all_docs docs [] [] [] t).2
    rw [show ((index_all_docs docs).2.1.lookup t)
        = (((docs.foldl (fun acc doc =>
            (indexWords acc.1 doc.titleWords doc.docID,
             indexWords acc.2.1 doc.abstractWords doc.docID,
             acc.2.2 ++ [(doc.docID, doc.ipc)])) ([], [], [])).2.1).lookup t) from rfl]
    rw [hchar]
    simpa using flatten_replicate_sorted docs hdocs (fun doc => doc.abstractWords.count t)

/-- Witness for C8 at a concrete two-document build, processed in ascending
DocumentID order ("A" before "B"), with term "t" occurring twice in the
first title so that run grouping matters: the weighted postings list built
for term "t" in the Title field has strictly increasing, duplicate-free
document IDs. -/
theorem C8_witness :
    ((((groupRuns ["A", "A", "B"]).map
        (fun g => (g.1, lnc_from_tf (fun _ => 0) g.2))).map Prod.fst).Pairwise (· < ·))
    ∧ ((((groupRuns ["A", "A", "B"]).map
        (fun g => (g.1, lnc_from_tf (fun _ => 0) g.2))).map Prod.fst).Nodup) :=
  C8_postings_sorted (fun _ => 0) [⟨"A", ["t", "t"], ["w"], "X"⟩, ⟨"B", ["t"], [], "Y"⟩]
    (by
      refine List.Pairwise.cons ?_ (by simp)
      intro b hb
      have hb2 : b = "B" := by simpa using hb
      subst hb2
      exact String.lt_iff_toList_lt.mpr (by decide))
    Field.Title
    ("t", (groupRuns ["A", "A", "B"]).map (fun g => (g.1, lnc_from_tf (fun _ => 0) g.2)))
    (List.mem_map_of_mem _
      (show ("t", ["A", "A", "B"]) ∈ (index_all_docs
          [⟨"A", ["t", "t"], ["w"], "X"⟩, ⟨"B", ["t"], [], "Y"⟩]).1 from by decide))

/-! ## Sum-of-squares accumulation and metadata characterization -/

/-- Lookup through a key-dependent value map. -/
theorem lookup_map_value {β γ : Type} (m : List (String × β)) (f : String → β → γ)
    (k : String) :
    ((m.map (fun e => (e.1, f e.1 e.2))).lookup k) = (m.lookup k).map (f k) := by
  induction m with
  | nil => simp
  | cons hd tl ih =>
    obtain ⟨k1, v1⟩ := hd
    by_cases h : k = k1
    · subst h
      have hb : (k == k) = true := by simp
      simp [List.lookup_cons, hb]
    · have hb : (k == k1) = false := by simpa using h
      simp only [List.map_cons, List.lookup_cons, hb]
      exact ih

/-- Effect of one `defaultdict` increment on lookup. -/
theorem lookup_bumpSq (m : List (String × ℚ)) (d : String) (x : ℚ) (k : String) :
    (bumpSq m d x).lookup k
      = if k = d then some ((m.lookup d).getD 0 + x) else m.lookup k := by
  unfold bumpSq
  cases hma : m.lookup d with
  | some v =>
    simp only [hma, Option.isSome_some, if_pos]
    have haddTo : (m.map (fun e => if e.1 = d then (e.1, e.2 + x) else e)).lookup k
        = (m.lookup k).map (fun w => if k = d then w + x else w) := lookup_addTo m d x k
    rw [haddTo]
    by_cases h : k = d
    · subst h; simp [hma]
    · simp [h]
  | none =>
    simp only [hma, Option.isSome_none, Bool.false_eq_true, if_false, ite_false]
    rw [lookup_append_or]
    by_cases h : k = d
    · subst h
      have hb : (k == k) = true := by simp
      simp [hma, List.lookup_cons, hb]
    · have hb : (k == d) = false := by simpa using h
      simp [List.lookup_cons, hb, h]

/-- If a key has no entry after the inner sum-of-squares fold, it had none
before and no posting mentioned it. -/
theorem bumpSq_fold_none (ps : List (String × ℚ)) :
    ∀ (acc : List (String × ℚ)) (k : String),
      ((ps.foldl (fun acc dw => bumpSq acc dw.1 (dw.2 ^ 2)) acc).lookup k = none) →
      acc.lookup k = none ∧ ∀ p ∈ ps, p.1 ≠ k := by
  induction ps with
  | nil => intro acc k h; exact ⟨h, by simp⟩
  | cons p rest ih =>
    intro acc k h
    rw [List.foldl_cons] at h
    obtain ⟨hacc2, hrest⟩ := ih (bumpSq acc p.1 (p.2 ^ 2)) k h
    rw [lookup_bumpSq] at hacc2
    by_cases hk : k = p.1
    · rw [if_pos hk] at hacc2
      exact Option.noConfusion hacc2
    · rw [if_neg hk] at hacc2
      refine ⟨hacc2, ?_⟩
      intro q hq
      rcases List.mem_cons.mp hq with rfl | hq2
      · exact fun he => hk he.symm
      · exact hrest q hq2

/-- The inner sum-of-squares fold keeps every stored value positive, given
nonzero posting weights. -/
theorem bumpSq_fold_pos (ps : List (String × ℚ)) :
    ∀ (acc : List (String × ℚ)) (k : String),
      (∀ p ∈ ps, p.2 ≠ 0) →
      (∀ v, acc.lookup k = some v → 0 < v) →
      ∀ s, ((ps.foldl (fun acc dw => bumpSq acc dw.1 (dw.2 ^ 2)) acc).lookup k = some s) →
        0 < s := by
  induction ps with
  | nil => intro acc k _ hacc s h; exact hacc s h
  | cons p rest ih =>
    intro acc k hw hacc s h
    rw [List.foldl_cons] at h
    refine ih (bumpSq acc p.1 (p.2 ^ 2)) k (fun q hq => hw q (List.mem_cons_of_mem _ hq))
      ?_ s h
    intro v hv
    rw [lookup_bumpSq] at hv
    have hp2 : 0 < p.2 ^ 2 := by
      rw [pow_two]
      exact mul_self_pos.mpr (hw p (List.mem_cons_self _ _))
    by_cases hk : k = p.1
    · subst hk
      rw [if_pos rfl] at hv
      injection hv with hv2
      subst hv2
      cases hal : acc.lookup p.1 with
      | none => simpa [hal] using hp2
      | some v0 =>
        have hv0 := hacc v0 hal
        rw [Option.getD_some]
        positivity
    · rw [if_neg hk] at hv
      exact hacc v hv

/-- A document with no entry in `sum_squares` appears in no postings list. -/
theorem sum_squares_none (Q : List (String × List (String × ℚ))) (d : String)
    (h : (sum_squares Q).lookup d = none) :
    ∀ tp ∈ Q, ∀ p ∈ tp.2, p.1 ≠ d := by
  unfold sum_squares at h
  have hgen : ∀ (l : List (String × List (String × ℚ))) (acc : List (String × ℚ)),
      ((l.foldl (fun acc e => e.2.foldl (fun acc dw => bumpSq acc dw.1 (dw.2 ^ 2)) acc)
        acc).lookup d = none) →
      acc.lookup d = none ∧ ∀ tp ∈ l, ∀ p ∈ tp.2, p.1 ≠ d := by
    intro l
    induction l with
    | nil => intro acc hl; exact ⟨hl, by simp⟩
    | cons tp rest ih =>
      intro acc hl
      rw [List.foldl_cons] at hl
      obtain ⟨hacc2, hrest⟩ := ih _ hl
      obtain ⟨hacc3, htp⟩ := bumpSq_fold_none tp.2 acc d hacc2
      refine ⟨hacc3, ?_⟩
      intro tq htq p hp
      rcases List.mem_cons.mp htq with rfl | htq2
      · exact htp p hp
      · exact hrest tq htq2 p hp
  exact (hgen Q [] h).2

/-- Every value stored in `sum_squares` is positive, given nonzero posting
weights. -/
theorem sum_squares_pos (Q : List (String × List (String × ℚ)))
    (hw : ∀ tp ∈ Q, ∀ p ∈ tp.2, p.2 ≠ 0) (d : String) :
    ∀ s, ((sum_squares Q).lookup d = some s) → 0 < s := by
  unfold sum_squares
  have hgen : ∀ (l : List (String × List (String × ℚ))) (acc : List (String × ℚ)),
      (∀ tp ∈ l, ∀ p ∈ tp.2, p.2 ≠ 0) →
      (∀ v, acc.lookup d = some v → 0 < v) →
      ∀ s, ((l.foldl (fun acc e => e.2.foldl (fun acc dw => bumpSq acc dw.1 (dw.2 ^ 2)) acc)
        acc).lookup d = some s) → 0 < s := by
    intro l
    induction l with
    | nil => intro acc _ hacc s h; exact hacc s h
    | cons tp rest ih =>
      intro acc hl hacc s h
      rw [List.foldl_cons] at h
      refine ih _ (fun tq htq => hl tq (List.mem_cons_of_mem _ htq)) ?_ s h
      intro v hv
      exact bumpSq_fold_pos tp.2 acc d (hl tp (List.mem_cons_self _ _)) hacc v hv
  exact hgen Q [] hw (fun v hv => by simp at hv)

/-- Characterization of the metadata produced by a successful
`calculate_metadata` run: each document's title norm is the square root of a
value actually stored in the title sum of squares, and its abstract norm is
the looked-up square root with default 0. -/
theorem calculate_metadata_mem (sqrt : ℚ → ℚ)
    (P Q : List (String × List (String × ℚ))) :
    ∀ (ipcs : List (String × String)) (md : List (String × DocMeta)),
      calculate_metadata sqrt P Q ipcs = some md →
      ∀ dm ∈ md, ∃ s, (sum_squares P).lookup dm.1 = some s
        ∧ dm.2.titleNorm = sqrt s
        ∧ dm.2.abstractNorm
            = ((((sum_squares Q).map (fun e => (e.1, sqrt e.2))).lookup dm.1).getD 0) := by
  intro ipcs
  induction ipcs with
  | nil =>
    intro md hmd dm hdm
    unfold calculate_metadata at hmd
    simp only [List.foldr_nil, Option.some.injEq] at hmd
    subst hmd
    simp at hdm
  | cons di rest ih =>
    intro md hmd dm hdm
    unfold calculate_metadata at hmd ih
    rw [List.foldr_cons] at hmd
    simp only [Option.bind_eq_bind, Option.bind_eq_some] at hmd
    obtain ⟨md2, hmd2, hstep⟩ := hmd
    obtain ⟨tl, htl, hpure⟩ := hstep
    simp only [pure, Option.some.injEq] at hpure
    subst hpure
    rcases List.mem_cons.mp hdm with rfl | hdm2
    · rw [lookup_map_value (sum_squares P) (fun _ v => sqrt v) di.1] at htl
      cases hsp : (sum_squares P).lookup di.1 with
      | none => rw [hsp] at htl; exact Option.noConfusion htl
      | some s =>
        rw [hsp] at htl
        injection htl with htl2
        exact ⟨s, rfl, htl2.symm, rfl⟩
    · exact ih md2 hmd2 dm hdm2

/-- The Abstract directory written by `write_postings` holds exactly the
abstract index's term keys. -/
theorem write_dir_abstract_keys (log10 : ℚ → ℚ) (big_N : Nat)
    (P Q : List (String × List (String × ℚ))) :
    (((write_postings log10 P Q big_N).2 Field.Abstract).map Prod.fst) = Q.map Prod.fst := by
  obtain ⟨ext, hext, hkeys⟩ := writeField_dir_append log10 big_N Q
    ⟨(writeField log10 big_N ⟨[], []⟩ P).file, []⟩
  unfold write_postings
  dsimp only
  rw [hext]
  simpa using hkeys

/-- Every document mentioned by a posting read back from the Abstract field
is a document mentioned in the written abstract index. -/
theorem read_postings_abstract_keys (log10 : ℚ → ℚ) (big_N : Nat)
    (P Q : List (String × List (String × ℚ)))
    (hQn : (Q.map Prod.fst).Nodup)
    (hQc : ∀ tp ∈ Q, ∀ p ∈ tp.2, ∀ c ∈ p.1.data, isSpaceCh c = false ∧ c ≠ ',')
    (t : String) (p : String × ℚ)
    (hp : p ∈ read_postings t (write_postings log10 P Q big_N).2
        (write_postings log10 P Q big_N).1 Field.Abstract) :
    ∃ tp ∈ Q, tp.1 = t ∧ ∃ q ∈ tp.2, p.1 = q.1 := by
  cases hlk : ((write_postings log10 P Q big_N).2 Field.Abstract).lookup t with
  | none =>
    have hempty : read_postings t (write_postings log10 P Q big_N).2
        (write_postings log10 P Q big_N).1 Field.Abstract = [] := by
      unfold read_postings
      rw [hlk]
    rw [hempty] at hp
    simp at hp
  | some e =>
    have hmem : t ∈ ((write_postings log10 P Q big_N).2 Field.Abstract).map Prod.fst := by
      by_contra hno
      rw [lookup_eq_none_of_not_mem_keys _ _ hno] at hlk
      exact Option.noConfusion hlk
    rw [write_dir_abstract_keys] at hmem
    obtain ⟨tp, htp, htpt⟩ := List.mem_map.mp hmem
    have hread := read_write_postings log10 big_N P Q Field.Abstract hQn hQc tp htp
    rw [htpt] at hread
    rw [hread] at hp
    obtain ⟨q, hq, hpq⟩ := List.mem_map.mp hp
    exact ⟨tp, htp, htpt, q, hq, by rw [← hpq]⟩

/-! ## Claim C9 -/

/-- Claim C9: a document whose stored vector norm for a field is 0 is never
divided by that zero norm, and that field contributes 0 to its combined
score.  Concretely, over build products of the same run (`calculate_metadata`
for the norms, `write_postings` for the directory and file): (a) the title
norm of a document in a successful build is never 0, so the premise is
vacuous for the title field; (b) if a document's abstract norm is 0 it has
no abstract postings at all, so it never enters the description score map —
the division loop, which iterates only over that map's entries, never
touches it — and its description score defaults to 0.  The square-root and
logarithm collaborators are constrained only by `0 < x → sqrt x ≠ 0`;
posting weights are nonzero (they are lnc weights ≥ 1). -/
theorem C9_zero_norm (log10 sqrt : ℚ → ℚ) (big_N : Nat)
    (P Q : List (String × List (String × ℚ))) (ipcs : List (String × String))
    (md : List (String × DocMeta))
    (hmd : calculate_metadata sqrt P Q ipcs = some md)
    (hsqrt : ∀ x : ℚ, 0 < x → sqrt x ≠ 0)
    (hPw : ∀ tp ∈ P, ∀ p ∈ tp.2, p.2 ≠ 0)
    (hQw : ∀ tp ∈ Q, ∀ p ∈ tp.2, p.2 ≠ 0)
    (hQn : (Q.map Prod.fst).Nodup)
    (hQc : ∀ tp ∈ Q, ∀ p ∈ tp.2, ∀ c ∈ p.1.data, isSpaceCh c = false ∧ c ≠ ',')
    (description_terms : List String)
    (d : String) (m : DocMeta) (hdm : (d, m) ∈ md) :
    m.titleNorm ≠ 0
    ∧ (m.abstractNorm = 0 →
        (field_scores_prediv log10 (write_postings log10 P Q big_N).2
            (write_postings log10 P Q big_N).1 description_terms Field.Abstract).lookup d = none
        ∧ d ∉ (field_scores_prediv log10 (write_postings log10 P Q big_N).2
            (write_postings log10 P Q big_N).1 description_terms Field.Abstract).map Prod.fst
        ∧ getD (divide_by_norm (field_scores_prediv log10 (write_postings log10 P Q big_N).2
            (write_postings log10 P Q big_N).1 description_terms Field.Abstract) md
            Field.Abstract) d = 0) := by
  obtain ⟨s, hsP, htn, han⟩ := calculate_metadata_mem sqrt P Q ipcs md hmd (d, m) hdm
  have htn2 : m.titleNorm = sqrt s := htn
  have han2 : m.abstractNorm
      = ((((sum_squares Q).map (fun e => (e.1, sqrt e.2))).lookup d).getD 0) := han
  constructor
  · rw [htn2]
    exact hsqrt s (sum_squares_pos P hPw d s hsP)
  · intro habs
    have hnone : (sum_squares Q).lookup d = none := by
      cases hsq : (sum_squares Q).lookup d with
      | none => rfl
      | some s2 =>
        exfalso
        have hs2 : 0 < s2 := sum_squares_pos Q hQw d s2 hsq
        have heq : m.abstractNorm = sqrt s2 := by
          rw [han2, lookup_map_value (sum_squares Q) (fun _ v => sqrt v) d, hsq]
          rfl
        exact hsqrt s2 hs2 (by rw [← heq]; exact habs)
    have hno : ∀ tp ∈ Q, ∀ p ∈ tp.2, p.1 ≠ d := sum_squares_none Q d hnone
    have hterms : ∀ t ∈ description_terms,
        ∀ p ∈ read_postings t (write_postings log10 P Q big_N).2
          (write_postings log10 P Q big_N).1 Field.Abstract, p.1 ≠ d := by
      intro t _ p hp
      obtain ⟨tp, htp, -, q, hq, hpq⟩ :=
        read_postings_abstract_keys log10 big_N P Q hQn hQc t p hp
      rw [hpq]
      exact hno tp htp q hq
    have hlknone := lookup_field_scores_prediv_none log10
      (write_postings log10 P Q big_N).2 (write_postings log10 P Q big_N).1
      description_terms Field.Abstract d hterms
    refine ⟨hlknone, not_mem_keys_of_lookup_eq_none _ d hlknone, ?_⟩
    unfold divide_by_norm getD
    rw [lookup_map_value _ (fun k v => v / metaNorm md Field.Abstract k) d, hlknone]
    rfl

unseal Rat.mul Rat.add Rat.inv Rat.sub in
/-- Witness for C9 at a concrete build: document "D2" has a title posting
but no abstract posting, so its stored abstract norm is 0; its title norm is
nonzero, it never enters the description score map for the query ["w"], and
its divided description score defaults to 0. -/
theorem C9_witness :
    (⟨1, 0, "B"⟩ : DocMeta).titleNorm ≠ 0
    ∧ ((⟨1, 0, "B"⟩ : DocMeta).abstractNorm = 0 →
        (field_scores_prediv (fun _ => 0)
            (write_postings (fun _ => 0) [("t", [("D1", 1), ("D2", 1)])]
              [("w", [("D1", 1)])] 2).2
            (write_postings (fun _ => 0) [("t", [("D1", 1), ("D2", 1)])]
              [("w", [("D1", 1)])] 2).1 ["w"] Field.Abstract).lookup "D2" = none
        ∧ "D2" ∉ (field_scores_prediv (fun _ => 0)
            (write_postings (fun _ => 0) [("t", [("D1", 1), ("D2", 1)])]
              [("w", [("D1", 1)])] 2).2
            (write_postings (fun _ => 0) [("t", [("D1", 1), ("D2", 1)])]
              [("w", [("D1", 1)])] 2).1 ["w"] Field.Abstract).map Prod.fst
        ∧ getD (divide_by_norm (field_scores_prediv (fun _ => 0)
            (write_postings (fun _ => 0) [("t", [("D1", 1), ("D2", 1)])]
              [("w", [("D1", 1)])] 2).2
            (write_postings (fun _ => 0) [("t", [("D1", 1), ("D2", 1)])]
              [("w", [("D1", 1)])] 2).1 ["w"] Field.Abstract)
            [("D1", ⟨1, 1, "A"⟩), ("D2", ⟨1, 0, "B"⟩)] Field.Abstract) "D2" = 0) :=
  C9_zero_norm (fun _ => 0) (fun x => x) 2 [("t", [("D1", 1), ("D2", 1)])]
    [("w", [("D1", 1)])] [("D1", "A"), ("D2", "B")]
    [("D1", ⟨1, 1, "A"⟩), ("D2", ⟨1, 0, "B"⟩)]
    (by decide) (fun x hx => ne_of_gt hx) (by decide) (by decide) (by decide) (by decide)
    ["w"] "D2" ⟨1, 0, "B"⟩ (by decide)

end HW4
